import Mathlib

/-!
Verification of the avalanchego-0.8.0 core against its natural-language
specification.  Each section shallowly embeds one component of the Go source
and proves the frozen claims about it.

Machine integers are modelled as `Nat` (with explicit `% 2^w` where overflow
matters), byte strings as `List Nat`, fallible code as `Option`/`Except`,
and stateful code as explicit state passing.
-/

set_option maxRecDepth 10000

/-! ## Vertex state store (`snow/engine/avalanche/state`, `state.go`)

The store wraps a byte-keyed database with a write-through cache.  We embed
the status namespace: `SetStatus` writes the cache and then the database
(deleting the key when the status is `Unknown` = 0), `Status` reads the
cache first and falls back to the database, parsing a big-endian `u32` and
treating any parse failure or missing key as `Unknown`.

Statuses are the `choices.Status` integers (`Unknown` = 0, `Processing` = 1,
`Rejected` = 2, `Accepted` = 3); the store packs and parses them as raw
`u32` values, so we keep them as `Nat` here.
-/

namespace VertexStore

/-- `wrappers.Packer.PackInt`: a `u32` as four big-endian bytes. -/
def packU32 (n : Nat) : List Nat :=
  [n / 2 ^ 24 % 256, n / 2 ^ 16 % 256, n / 2 ^ 8 % 256, n % 256]

/-- `wrappers.Packer.UnpackInt` followed by the `p.Offset == len(b)` and
`!p.Errored()` checks of `state.Status`: the stored bytes parse exactly when
they are four bytes long. -/
def unpackStatus : List Nat → Option Nat
  | [b0, b1, b2, b3] => some (b0 * 2 ^ 24 + b1 * 2 ^ 16 + b2 * 2 ^ 8 + b3)
  | _ => none

/-- The status namespace of the `state` struct: the LRU `dbCache` (a cached
status per id, `none` when the id is not cached) and the underlying
database (`none` when the key is absent). -/
structure St where
  dbCache : Nat → Option Nat
  db : Nat → Option (List Nat)

/-- `state.Status`: cache hit wins; otherwise read the database, parse,
cache the result, and return `Unknown` (0) on a missing key or parse
failure.  Returns the status together with the post-read store. -/
def St.status (s : St) (id : Nat) : Nat × St :=
  match s.dbCache id with
  | some v => (v, s)
  | none =>
    match s.db id with
    | some b =>
      match unpackStatus b with
      | some v => (v, { s with dbCache := fun k => if k = id then some v else s.dbCache k })
      | none => (0, { s with dbCache := fun k => if k = id then some 0 else s.dbCache k })
    | none => (0, { s with dbCache := fun k => if k = id then some 0 else s.dbCache k })

/-- `state.SetStatus`: write-through — cache first, then the database; a
status of `Unknown` (0) deletes the database key, anything else stores the
packed `u32`. -/
def St.setStatus (s : St) (id : Nat) (v : Nat) : St :=
  let cached : St := { s with dbCache := fun k => if k = id then some v else s.dbCache k }
  if v = 0 then
    { cached with db := fun k => if k = id then none else s.db k }
  else
    { cached with db := fun k => if k = id then some (packU32 v) else s.db k }

end VertexStore

/-! ## Alias registry (`ids/aliases.go`)

`Aliaser` keeps the two Go maps as functions: `dealias` from alias to id
(`none` = absent) and `aliases` from id to its alias list (the Go map's
zero value is the empty slice). -/

namespace AliasReg

structure Aliaser where
  dealias : String → Option Nat
  aliases : Nat → List String

/-- `Aliaser.Lookup`: `none` models the "there is no ID with alias" error. -/
def Aliaser.lookup (a : Aliaser) (alias_ : String) : Option Nat :=
  a.dealias alias_

/-- `Aliaser.Aliases`. -/
def Aliaser.aliasesOf (a : Aliaser) (id : Nat) : List String :=
  a.aliases id

/-- `Aliaser.Alias`: errors (second component `true`) and leaves the maps
unchanged when the alias is already taken by any id; otherwise records the
alias in both maps. -/
def Aliaser.alias (a : Aliaser) (id : Nat) (alias_ : String) : Aliaser × Bool :=
  match a.dealias alias_ with
  | some _ => (a, true)
  | none =>
    ({ dealias := fun s => if s = alias_ then some id else a.dealias s,
       aliases := fun k => if k = id then a.aliases id ++ [alias_] else a.aliases k }, false)

/-- `Aliaser.RemoveAliases`: drops the id's alias list and deletes each of
its aliases from `dealias`. -/
def Aliaser.removeAliases (a : Aliaser) (id : Nat) : Aliaser :=
  { dealias := fun s => if s ∈ a.aliases id then none else a.dealias s,
    aliases := fun k => if k = id then [] else a.aliases k }

end AliasReg

/-! ## Uniform sampler without replacement (`utils/sampler/uniform_replacer.go`)

`uniformReplacer.Sample(count)` lazily performs the first `count` swaps of a
Fisher–Yates shuffle of `[0, …, length-1]`, keeping the sparse array in the
`drawn` map (identity outside its domain).  Randomness is modelled by an
oracle `rho : Nat → Nat`; at step `i` the Go code draws
`rand.Int63n(length-i) + i`, i.e. a value in `[i, length)`, which we embed
as `i + rho i % (length - i)`. -/

namespace Sampler

def maxInt64 : Nat := 2 ^ 63 - 1

structure UniformReplacer where
  length : Nat
deriving DecidableEq

/-- `uniformReplacer.Initialize`: rejects lengths above `math.MaxInt64`. -/
def uniformInit (length : Nat) : Option UniformReplacer :=
  if length > maxInt64 then none else some ⟨length⟩

/-- Point update of the `drawn` map (`drawn[k] = v`). -/
def update (f : Nat → Nat) (k v : Nat) : Nat → Nat := fun j => if j = k then v else f j

/-- Step `i`'s draw: a value in `[i, length)` when `i < length`. -/
def drawAt (L : Nat) (rho : Nat → Nat) (i : Nat) : Nat := i + rho i % (L - i)

/-- The sampling loop: at step `i`, `ret := drawn.get(draw, draw)` and
`drawn[draw] := drawn.get(i, i)`; `f` is the `drawn` map with the identity
default already applied. -/
def sampleLoop (L : Nat) (rho : Nat → Nat) : Nat → Nat → (Nat → Nat) → List Nat
  | 0, _, _ => []
  | n + 1, i, f =>
    let d := drawAt L rho i
    f d :: sampleLoop L rho n (i + 1) (update f d (f i))

/-- `uniformReplacer.Sample`: errors iff `count < 0 || length < count`. -/
def UniformReplacer.sample (s : UniformReplacer) (count : Int) (rho : Nat → Nat) :
    Option (List Nat) :=
  if count < 0 ∨ (s.length : Int) < count then none
  else some (sampleLoop s.length rho count.toNat 0 id)

/-- Loop invariant of the lazy shuffle: starting at step `i` from a map `f`
that is `< L`-valued and injective on `[i, L)`, the loop emits `n` values of
`f` on `[i, L)` with no duplicates. -/
theorem sampleLoop_spec (L : Nat) (rho : Nat → Nat) :
    ∀ (n i : Nat) (f : Nat → Nat), i + n ≤ L →
      (∀ j, i ≤ j → j < L → f j < L) →
      (∀ j k, i ≤ j → j < L → i ≤ k → k < L → f j = f k → j = k) →
      (sampleLoop L rho n i f).length = n ∧
      (∀ x ∈ sampleLoop L rho n i f, ∃ j, i ≤ j ∧ j < L ∧ x = f j) ∧
      (sampleLoop L rho n i f).Nodup := by
  intro n
  induction n with
  | zero => intro i f _ _ _; simp [sampleLoop]
  | succ n ih =>
    intro i f hle h1 h2
    have hiL : i < L := by omega
    have hpos : 0 < L - i := by omega
    set d := drawAt L rho i with hd
    have hdi : i ≤ d := Nat.le_add_right _ _
    have hdL : d < L := by
      have := Nat.mod_lt (rho i) hpos
      simp only [hd, drawAt]; omega
    have hfi : f i < L := h1 i le_rfl hiL
    have h1' : ∀ j, i + 1 ≤ j → j < L → update f d (f i) j < L := by
      intro j hj1 hj2
      simp only [update]
      split
      · exact hfi
      · exact h1 j (by omega) hj2
    have h2' : ∀ j k, i + 1 ≤ j → j < L → i + 1 ≤ k → k < L →
        update f d (f i) j = update f d (f i) k → j = k := by
      intro j k hj1 hj2 hk1 hk2 heq
      simp only [update] at heq
      by_cases hjd : j = d <;> by_cases hkd : k = d
      · omega
      · rw [if_pos hjd, if_neg hkd] at heq
        have := h2 i k le_rfl hiL (by omega) hk2 heq
        omega
      · rw [if_neg hjd, if_pos hkd] at heq
        have := h2 j i (by omega) hj2 le_rfl hiL heq
        omega
      · rw [if_neg hjd, if_neg hkd] at heq
        exact h2 j k (by omega) hj2 (by omega) hk2 heq
    obtain ⟨ihlen, ihmem, ihnd⟩ := ih (i + 1) (update f d (f i)) (by omega) h1' h2'
    refine ⟨by simp [sampleLoop, ihlen], ?_, ?_⟩
    · intro x hx
      simp only [sampleLoop, List.mem_cons] at hx
      rcases hx with hx | hx
      · exact ⟨d, hdi, hdL, hx⟩
      · obtain ⟨j, hj1, hj2, hj3⟩ := ihmem x hx
        simp only [update] at hj3
        split at hj3
        · exact ⟨i, le_rfl, hiL, hj3⟩
        · exact ⟨j, by omega, hj2, hj3⟩
    · simp only [sampleLoop, List.nodup_cons]
      refine ⟨fun hmem => ?_, ihnd⟩
      obtain ⟨j, hj1, hj2, hj3⟩ := ihmem _ hmem
      simp only [update] at hj3
      by_cases hjd : j = d
      · rw [if_pos hjd] at hj3
        have := h2 d i hdi hdL le_rfl hiL hj3
        omega
      · rw [if_neg hjd] at hj3
        have := h2 d j hdi hdL (by omega) hj2 hj3
        omega

end Sampler

/-- C9: for every initialized length `L ≤ MaxInt64` and every `count`,
`uniformReplacer.Sample(count)` errors exactly when `count < 0` or
`count > L`; otherwise, for every sequence of random draws, it returns
exactly `count` pairwise-distinct values, each below `L`. -/
theorem C9_uniform_sample (L : Nat) (hL : L ≤ Sampler.maxInt64) :
    Sampler.uniformInit L = some ⟨L⟩ ∧
    ∀ (count : Int) (rho : Nat → Nat),
      ((Sampler.UniformReplacer.mk L).sample count rho = none ↔
        count < 0 ∨ (L : Int) < count) ∧
      (∀ res, (Sampler.UniformReplacer.mk L).sample count rho = some res →
        res.length = count.toNat ∧ res.Nodup ∧ ∀ x ∈ res, x < L) := by
  refine ⟨by simp [Sampler.uniformInit, Nat.not_lt.mpr hL], fun count rho => ⟨?_, ?_⟩⟩
  · simp only [Sampler.UniformReplacer.sample]
    split <;> simp_all
  · intro res hres
    simp only [Sampler.UniformReplacer.sample] at hres
    split at hres
    · exact absurd hres (by simp)
    · rename_i hcond
      push_neg at hcond
      have hcnt : count.toNat ≤ L := by omega
      obtain ⟨hlen, hmem, hnd⟩ := Sampler.sampleLoop_spec L rho count.toNat 0 id
        (by omega) (fun j _ hj => hj) (fun j k _ _ _ _ h => h)
      have : res = Sampler.sampleLoop L rho count.toNat 0 id := by
        injection hres.symm
      subst this
      refine ⟨hlen, hnd, fun x hx => ?_⟩
      obtain ⟨j, _, hj2, hj3⟩ := hmem x hx
      simpa [hj3] using hj2

/-- Witness for C9 at `L = 3`, `count = 2`, a constant-zero oracle. -/
theorem C9_uniform_sample_witness :
    Sampler.uniformInit 3 = some ⟨3⟩ ∧
    ((Sampler.UniformReplacer.mk 3).sample 2 (fun _ => 0) = none ↔
      (2 : Int) < 0 ∨ (3 : Int) < 2) ∧
    (Sampler.UniformReplacer.mk 3).sample 2 (fun _ => 0) = some [0, 1] := by
  have h3 : (3 : Nat) ≤ Sampler.maxInt64 := by norm_num [Sampler.maxInt64]
  refine ⟨(C9_uniform_sample 3 h3).1, ((C9_uniform_sample 3 h3).2 2 (fun _ => 0)).1, ?_⟩
  decide

/-! ## Bootstrap engine (`snow/engine/avalanche/bootstrap`)

Modelled from the spec: the bootstrapper itself is not among the sources
(only its test suite is), so the engine of spec §4.6 is embedded as an
explicit state machine, validated against every scenario of the test suite.

* A `Dag` describes the universe of vertices and transactions a peer can
  serve (container bytes are identified with vertex ids, so parsing a
  container looks the vertex up in the `Dag`).
* `BState` is the engine state: `stored` = vertices known locally
  (status `Processing` unless accepted), `txKnown` = transactions seen
  inside stored vertices, `toProcess` = vertices enqueued for acceptance
  (the job queue), `outstanding` = the live `GetAncestors` requests
  (`requestID ↦ vertex`, the spec's `needed` set), `requests` = the log of
  all `GetAncestors` ever issued, `trace` = the acceptance order, and
  `finished` = how many times `onFinished` has fired.
* Statuses are derived: a vertex is `Accepted` iff its accept event is in
  the trace, `Processing` iff stored but not accepted, `Unknown` otherwise.
* Semantic verification is modelled as always succeeding (no scenario of
  the suite rejects), so the `Rejected` path never fires.

Operations follow spec §4.6: `forceAccepted` fetches each frontier vertex
(processing it when known locally, else issuing `GetAncestors` under a
fresh request id); `multiPut` matches the request id, requires the first
container to be the requested vertex — otherwise it reissues the request
and keeps the remaining containers only as cache prefills — and finishes
when no request is outstanding by draining the job queue: a transaction is
accepted once its dependencies are accepted, a vertex once its parents and
transactions are. -/

namespace Bootstrap

inductive Status where
  | Unknown
  | Processing
  | Rejected
  | Accepted
deriving DecidableEq

inductive Ev where
  | vtx (v : Nat)
  | tx (t : Nat)
deriving DecidableEq

structure Vtx where
  vid : Nat
  parents : List Nat
  txs : List Nat
deriving DecidableEq

structure TxN where
  tid : Nat
  deps : List Nat
deriving DecidableEq

structure Dag where
  vtxs : List Vtx
  txs : List TxN
deriving DecidableEq

def Dag.getVtx (dag : Dag) (v : Nat) : Option Vtx := dag.vtxs.find? (fun x => x.vid == v)

def Dag.txDeps (dag : Dag) (t : Nat) : List Nat :=
  ((dag.txs.find? (fun x => x.tid == t)).map TxN.deps).getD []

structure BState where
  stored : List Nat
  txKnown : List Nat
  toProcess : List Nat
  outstanding : List (Nat × Nat)
  nextReq : Nat
  frontier : List Nat
  trace : List Ev
  requests : List (Nat × Nat)
  finished : Nat
deriving DecidableEq

def vtxIds (tr : List Ev) : List Nat :=
  tr.filterMap (fun e => match e with | .vtx v => some v | .tx _ => none)

def txIds (tr : List Ev) : List Nat :=
  tr.filterMap (fun e => match e with | .tx t => some t | .vtx _ => none)

def vtxStatus (st : BState) (v : Nat) : Status :=
  if v ∈ vtxIds st.trace then .Accepted
  else if v ∈ st.stored then .Processing
  else .Unknown

def txStatus (st : BState) (t : Nat) : Status :=
  if t ∈ txIds st.trace then .Accepted
  else if t ∈ st.txKnown then .Processing
  else .Unknown

/-- Issue `GetAncestors` for `v` under the next (fresh) request id. -/
def issueRequest (st : BState) (v : Nat) : BState :=
  { st with outstanding := st.outstanding ++ [(st.nextReq, v)],
            requests := st.requests ++ [(st.nextReq, v)],
            nextReq := st.nextReq + 1 }

def outstandingIds (st : BState) : List Nat := st.outstanding.map Prod.snd

/-- Write a parsed vertex into the store and record its transactions. -/
def storeVtx (st : BState) (vt : Vtx) : BState :=
  { st with stored := if vt.vid ∈ st.stored then st.stored else st.stored ++ [vt.vid],
            txKnown := st.txKnown ++ vt.txs.filter (fun t => decide (t ∉ st.txKnown)) }

/-- Fetch a parent that is neither accepted, stored nor already requested. -/
def reqStep (s : BState) (p : Nat) : BState :=
  if p ∈ vtxIds s.trace ∨ p ∈ s.stored ∨ p ∈ outstandingIds s then s else issueRequest s p

/-- The spec's `process` traversal: enqueue a stored vertex for acceptance,
request every unknown parent, and walk into stored parents. -/
def procLoop (dag : Dag) : Nat → BState → List Nat → BState
  | 0, st, _ => st
  | _ + 1, st, [] => st
  | fuel + 1, st, v :: work =>
    if v ∈ st.toProcess ∨ v ∈ vtxIds st.trace then procLoop dag fuel st work
    else
      match dag.getVtx v with
      | none => procLoop dag fuel st work
      | some vt =>
        procLoop dag fuel
          (vt.parents.foldl reqStep
            { st with toProcess := st.toProcess ++ [v],
                      txKnown := st.txKnown ++
                        vt.txs.filter (fun t => decide (t ∉ st.txKnown)) })
          (work ++ vt.parents.filter (fun p => decide (p ∈ st.stored)))

def vtxTxs (dag : Dag) (v : Nat) : List Nat := ((dag.getVtx v).map Vtx.txs).getD []

/-- The transaction job: accept once every dependency is accepted. -/
def acceptTxStep (dag : Dag) (st : BState) (t : Nat) : BState :=
  if t ∈ txIds st.trace then st
  else if t ∈ st.txKnown ∧ ∀ d ∈ dag.txDeps t, d ∈ txIds st.trace then
    { st with trace := st.trace ++ [.tx t] }
  else st

/-- The vertex job: accept once every parent and contained transaction is
accepted. -/
def acceptVtxStep (dag : Dag) (st : BState) (v : Nat) : BState :=
  if v ∈ vtxIds st.trace then st
  else
    match dag.getVtx v with
    | none => st
    | some vt =>
      if (∀ p ∈ vt.parents, p ∈ vtxIds st.trace) ∧ (∀ t ∈ vt.txs, t ∈ txIds st.trace) then
        { st with trace := st.trace ++ [.vtx v] }
      else st

def txsFold (dag : Dag) (s : BState) (v : Nat) : BState :=
  (vtxTxs dag v).foldl (acceptTxStep dag) s

def sweepTxs (dag : Dag) (st : BState) : BState :=
  st.toProcess.foldl (txsFold dag) st

/-- One pass of the job queue: try every transaction of every enqueued
vertex, then every enqueued vertex. -/
def drainSweep (dag : Dag) (st : BState) : BState :=
  (sweepTxs dag st).toProcess.foldl (acceptVtxStep dag) (sweepTxs dag st)

def drain (dag : Dag) : Nat → BState → BState
  | 0, st => st
  | n + 1, st => drain dag n (drainSweep dag st)

def drainFuel (dag : Dag) : Nat := dag.vtxs.length + dag.txs.length + 1

/-- When no request is outstanding and `onFinished` has not fired yet,
drain the job queue and fire it. -/
def tryFinish (dag : Dag) (st : BState) : BState :=
  if st.outstanding = [] ∧ st.finished = 0 then
    { drain dag (drainFuel dag) st with finished := (drain dag (drainFuel dag) st).finished + 1 }
  else st

def procFuel (dag : Dag) : Nat := (dag.vtxs.length + 1) * (dag.vtxs.length + 1)

/-- The spec's `fetch`: process a vertex already known locally, otherwise
issue `GetAncestors` unless a request for it is already outstanding. -/
def fetch (dag : Dag) (st : BState) (v : Nat) : BState :=
  if v ∈ vtxIds st.trace then st
  else if v ∈ st.stored then procLoop dag (procFuel dag) st [v]
  else if v ∈ outstandingIds st then st
  else issueRequest st v

def initState (stored txKnown : List Nat) : BState :=
  ⟨stored, txKnown, [], [], 0, [], [], [], 0⟩

/-- `ForceAccepted`: fetch every frontier vertex, then complete if nothing
is outstanding. -/
def forceAccepted (dag : Dag) (st : BState) (frontierIDs : List Nat) : BState :=
  tryFinish dag (frontierIDs.foldl (fetch dag) { st with frontier := frontierIDs })

/-- `ParseVertex`: container bytes are vertex ids of the peer's DAG. -/
def parse (dag : Dag) (bytes : Nat) : Option Vtx := dag.getVtx bytes

def storeStep (dag : Dag) (s : BState) (b : Nat) : BState :=
  match parse dag b with | some vt => storeVtx s vt | none => s

def storeParsed (dag : Dag) (st : BState) (bs : List Nat) : BState :=
  bs.foldl (storeStep dag) st

def removeReq (st : BState) (reqID : Nat) : BState :=
  { st with outstanding := st.outstanding.filter (fun r => decide (r.1 ≠ reqID)) }

def lookupReq (st : BState) (reqID : Nat) : Option Nat :=
  (st.outstanding.find? (fun r => r.1 == reqID)).map Prod.snd

/-- `MultiPut`: unsolicited responses are dropped; an empty or unparseable
response behaves like a failure (re-fetch); an unexpected first container
reissues the request under a fresh id and keeps the rest only as cache
prefills; otherwise every container is stored and the requested vertex is
processed. -/
def multiPutBody (dag : Dag) (st : BState) (v : Nat) (containers : List Nat) : BState :=
  match containers with
  | [] => tryFinish dag (fetch dag st v)
  | c0 :: rest =>
    match parse dag c0 with
    | none => tryFinish dag (fetch dag st v)
    | some vt0 =>
      if vt0.vid ≠ v then
        issueRequest (storeParsed dag st rest) v
      else
        tryFinish dag (procLoop dag (procFuel dag) (storeParsed dag st containers) [v])

def multiPut (dag : Dag) (st : BState) (reqID : Nat) (containers : List Nat) : BState :=
  match lookupReq st reqID with
  | none => st
  | some v => multiPutBody dag (removeReq st reqID) v containers

/-- `GetAncestorsFailed`: clear the request and fetch the vertex again. -/
def getAncestorsFailed (dag : Dag) (st : BState) (reqID : Nat) : BState :=
  match lookupReq st reqID with
  | none => st
  | some v => tryFinish dag (fetch dag (removeReq st reqID) v)

/-- The states a single bootstrap can reach: `ForceAccepted` on a fresh
engine (with any locally pre-stored vertices), followed by any sequence of
`MultiPut` responses and `GetAncestors` failures. -/
inductive Reachable (dag : Dag) : BState → Prop where
  | boot : ∀ (stored txKnown frontierIDs : List Nat),
      Reachable dag (forceAccepted dag (initState stored txKnown) frontierIDs)
  | put : ∀ (st : BState) (reqID : Nat) (containers : List Nat), Reachable dag st →
      Reachable dag (multiPut dag st reqID containers)
  | failed : ∀ (st : BState) (reqID : Nat), Reachable dag st →
      Reachable dag (getAncestorsFailed dag st reqID)

end Bootstrap

namespace Bootstrap

theorem foldl_preserve {α : Type} (P : BState → Prop) (f : BState → α → BState)
    (hf : ∀ (s : BState) (a : α), P s → P (f s a)) :
    ∀ (l : List α) (s : BState), P s → P (l.foldl f s) := by
  intro l
  induction l with
  | nil => intro s h; exact h
  | cons a l ih => intro s h; exact ih (f s a) (hf s a h)

/-- Fields the request phase never changes. -/
def ProcFrame (st s : BState) : Prop :=
  s.trace = st.trace ∧ s.finished = st.finished ∧ s.stored = st.stored ∧
    s.frontier = st.frontier

theorem procFrame_refl (st : BState) : ProcFrame st st := ⟨rfl, rfl, rfl, rfl⟩

theorem reqStep_procFrame (st s : BState) (p : Nat) (h : ProcFrame st s) :
    ProcFrame st (reqStep s p) := by
  unfold reqStep
  split
  · exact h
  · exact h

theorem procLoop_procFrame (dag : Dag) :
    ∀ (fuel : Nat) (st : BState) (w : List Nat), ProcFrame st (procLoop dag fuel st w) := by
  intro fuel
  induction fuel with
  | zero => intro st w; exact procFrame_refl st
  | succ fuel ih =>
    intro st w
    match w with
    | [] => exact procFrame_refl st
    | v :: work =>
      simp only [procLoop]
      split
      · exact ih st work
      · cases hv : dag.getVtx v with
        | none => exact ih st work
        | some vt =>
          have hmid : ProcFrame st (vt.parents.foldl reqStep
              { st with toProcess := st.toProcess ++ [v],
                        txKnown := st.txKnown ++
                          vt.txs.filter (fun t => decide (t ∉ st.txKnown)) }) :=
            foldl_preserve (ProcFrame st) reqStep (reqStep_procFrame st) vt.parents _
              ⟨rfl, rfl, rfl, rfl⟩
          obtain ⟨e1, e2, e3, e4⟩ := ih (vt.parents.foldl reqStep
            { st with toProcess := st.toProcess ++ [v],
                      txKnown := st.txKnown ++
                        vt.txs.filter (fun t => decide (t ∉ st.txKnown)) })
            (work ++ vt.parents.filter (fun p => decide (p ∈ st.stored)))
          exact ⟨e1.trans hmid.1, e2.trans hmid.2.1, e3.trans hmid.2.2.1,
            e4.trans hmid.2.2.2⟩

/-- Request ids are bounded by the counter: the log and the outstanding set
only hold ids below `nextReq`, so `nextReq` is always fresh. -/
def ReqInv (st : BState) : Prop :=
  (∀ r ∈ st.outstanding, r.1 < st.nextReq) ∧ (∀ r ∈ st.requests, r.1 < st.nextReq)

theorem issueRequest_reqInv (st : BState) (v : Nat) (h : ReqInv st) :
    ReqInv (issueRequest st v) := by
  constructor <;> intro r hr <;>
    simp only [issueRequest, List.mem_append, List.mem_singleton] at hr <;>
    rcases hr with hr | hr
  · exact Nat.lt_succ_of_lt (h.1 r hr)
  · subst hr; exact Nat.lt_succ_self _
  · exact Nat.lt_succ_of_lt (h.2 r hr)
  · subst hr; exact Nat.lt_succ_self _

theorem reqStep_reqInv (s : BState) (p : Nat) (h : ReqInv s) : ReqInv (reqStep s p) := by
  unfold reqStep
  split
  · exact h
  · exact issueRequest_reqInv s p h

theorem procLoop_reqInv (dag : Dag) :
    ∀ (fuel : Nat) (st : BState) (w : List Nat), ReqInv st → ReqInv (procLoop dag fuel st w) := by
  intro fuel
  induction fuel with
  | zero => intro st w h; exact h
  | succ fuel ih =>
    intro st w h
    match w with
    | [] => exact h
    | v :: work =>
      simp only [procLoop]
      split
      · exact ih st work h
      · cases hv : dag.getVtx v with
        | none => exact ih st work h
        | some vt =>
          exact ih _ _ (foldl_preserve ReqInv reqStep reqStep_reqInv vt.parents _ h)

theorem removeReq_reqInv (st : BState) (reqID : Nat) (h : ReqInv st) :
    ReqInv (removeReq st reqID) := by
  refine ⟨fun r hr => ?_, h.2⟩
  exact h.1 r (List.mem_of_mem_filter hr)

theorem storeVtx_outReq (st : BState) (vt : Vtx) :
    (storeVtx st vt).outstanding = st.outstanding ∧ (storeVtx st vt).requests = st.requests ∧
      (storeVtx st vt).nextReq = st.nextReq ∧ (storeVtx st vt).trace = st.trace ∧
      (storeVtx st vt).finished = st.finished ∧ (storeVtx st vt).frontier = st.frontier :=
  ⟨rfl, rfl, rfl, rfl, rfl, rfl⟩

/-- Fields `storeParsed` never changes. -/
def StoreFrame (st s : BState) : Prop :=
  s.outstanding = st.outstanding ∧ s.requests = st.requests ∧ s.nextReq = st.nextReq ∧
    s.trace = st.trace ∧ s.finished = st.finished ∧ s.frontier = st.frontier ∧
    s.toProcess = st.toProcess

theorem storeStep_storeFrame (dag : Dag) (st s : BState) (b : Nat) (h : StoreFrame st s) :
    StoreFrame st (storeStep dag s b) := by
  unfold storeStep
  cases parse dag b with
  | none => exact h
  | some vt => exact h

theorem storeParsed_storeFrame (dag : Dag) (st : BState) (bs : List Nat) :
    StoreFrame st (storeParsed dag st bs) :=
  foldl_preserve (StoreFrame st) (storeStep dag) (storeStep_storeFrame dag st) bs st
    ⟨rfl, rfl, rfl, rfl, rfl, rfl, rfl⟩

/-! ### Acceptance-phase machinery: traces only grow, and only with guarded
events. -/

/-- Fields the drain phase never changes; the trace is only appended to. -/
def AcceptFrame (st s : BState) : Prop :=
  s.outstanding = st.outstanding ∧ s.requests = st.requests ∧ s.nextReq = st.nextReq ∧
    s.stored = st.stored ∧ s.txKnown = st.txKnown ∧ s.toProcess = st.toProcess ∧
    s.frontier = st.frontier ∧ s.finished = st.finished ∧
    ∃ ext, s.trace = st.trace ++ ext

theorem acceptFrame_refl (st : BState) : AcceptFrame st st :=
  ⟨rfl, rfl, rfl, rfl, rfl, rfl, rfl, rfl, [], (List.append_nil _).symm⟩

theorem acceptTxStep_acceptFrame (dag : Dag) (st s : BState) (t : Nat)
    (h : AcceptFrame st s) : AcceptFrame st (acceptTxStep dag s t) := by
  obtain ⟨h1, h2, h3, h4, h5, h6, h7, h8, ext, hext⟩ := h
  unfold acceptTxStep
  split
  · exact ⟨h1, h2, h3, h4, h5, h6, h7, h8, ext, hext⟩
  · split
    · exact ⟨h1, h2, h3, h4, h5, h6, h7, h8, ext ++ [.tx t], by
        simp [hext, List.append_assoc]⟩
    · exact ⟨h1, h2, h3, h4, h5, h6, h7, h8, ext, hext⟩

theorem acceptVtxStep_acceptFrame (dag : Dag) (st s : BState) (v : Nat)
    (h : AcceptFrame st s) : AcceptFrame st (acceptVtxStep dag s v) := by
  obtain ⟨h1, h2, h3, h4, h5, h6, h7, h8, ext, hext⟩ := h
  unfold acceptVtxStep
  split
  · exact ⟨h1, h2, h3, h4, h5, h6, h7, h8, ext, hext⟩
  · split
    · exact ⟨h1, h2, h3, h4, h5, h6, h7, h8, ext, hext⟩
    · split
      · exact ⟨h1, h2, h3, h4, h5, h6, h7, h8, ext ++ [.vtx v], by
          simp [hext, List.append_assoc]⟩
      · exact ⟨h1, h2, h3, h4, h5, h6, h7, h8, ext, hext⟩

theorem txsFold_acceptFrame (dag : Dag) (st s : BState) (v : Nat)
    (h : AcceptFrame st s) : AcceptFrame st (txsFold dag s v) :=
  foldl_preserve (AcceptFrame st) (acceptTxStep dag)
    (acceptTxStep_acceptFrame dag st) (vtxTxs dag v) s h

theorem drainSweep_acceptFrame (dag : Dag) (st : BState) :
    AcceptFrame st (drainSweep dag st) := by
  unfold drainSweep
  exact foldl_preserve (AcceptFrame st) (acceptVtxStep dag)
    (acceptVtxStep_acceptFrame dag st) _ _
    (foldl_preserve (AcceptFrame st) (txsFold dag) (txsFold_acceptFrame dag st) _ _
      (acceptFrame_refl st))

theorem acceptFrame_trans (a b c : BState) (h1 : AcceptFrame a b) (h2 : AcceptFrame b c) :
    AcceptFrame a c := by
  obtain ⟨x1, x2, x3, x4, x5, x6, x7, x8, e1, he1⟩ := h1
  obtain ⟨y1, y2, y3, y4, y5, y6, y7, y8, e2, he2⟩ := h2
  exact ⟨y1.trans x1, y2.trans x2, y3.trans x3, y4.trans x4, y5.trans x5, y6.trans x6,
    y7.trans x7, y8.trans x8, e1 ++ e2, by simp [he2, he1, List.append_assoc]⟩

theorem drain_acceptFrame (dag : Dag) :
    ∀ (n : Nat) (st : BState), AcceptFrame st (drain dag n st) := by
  intro n
  induction n with
  | zero => intro st; exact acceptFrame_refl st
  | succ n ih =>
    intro st
    exact acceptFrame_trans st (drainSweep dag st) _ (drainSweep_acceptFrame dag st)
      (ih (drainSweep dag st))

/-- The guard that justifies appending one acceptance event to a trace. -/
def guardOK (dag : Dag) (acc : List Ev) : Ev → Prop
  | .vtx v => ∃ vt, dag.getVtx v = some vt ∧ (∀ p ∈ vt.parents, p ∈ vtxIds acc) ∧
      (∀ t ∈ vt.txs, t ∈ txIds acc)
  | .tx t => ∀ d ∈ dag.txDeps t, d ∈ txIds acc

/-- Every event of the trace was appended with its guard satisfied by the
strictly earlier events. -/
def traceOKFrom (dag : Dag) : List Ev → List Ev → Prop
  | _, [] => True
  | acc, e :: rest => guardOK dag acc e ∧ traceOKFrom dag (acc ++ [e]) rest

def traceOK (dag : Dag) (tr : List Ev) : Prop := traceOKFrom dag [] tr

theorem traceOKFrom_append (dag : Dag) :
    ∀ (l : List Ev) (acc : List Ev) (e : Ev),
      traceOKFrom dag acc (l ++ [e]) ↔ traceOKFrom dag acc l ∧ guardOK dag (acc ++ l) e := by
  intro l
  induction l with
  | nil => intro acc e; simp [traceOKFrom]
  | cons x xs ih =>
    intro acc e
    constructor
    · rintro ⟨hx, hrest⟩
      simp only [List.append_eq] at hrest
      rw [ih] at hrest
      exact ⟨⟨hx, hrest.1⟩, by simpa [List.append_assoc] using hrest.2⟩
    · rintro ⟨⟨hx, hxs⟩, hg⟩
      exact ⟨hx, (ih _ _).mpr ⟨hxs, by simpa [List.append_assoc] using hg⟩⟩

theorem traceOKFrom_split (dag : Dag) :
    ∀ (l : List Ev) (acc : List Ev) (e : Ev) (r : List Ev),
      traceOKFrom dag acc (l ++ e :: r) → guardOK dag (acc ++ l) e := by
  intro l
  induction l with
  | nil => intro acc e r h; simpa using h.1
  | cons x xs ih =>
    intro acc e r h
    have := ih (acc ++ [x]) e r h.2
    simpa [List.append_assoc] using this

theorem acceptTxStep_traceOK (dag : Dag) (s : BState) (t : Nat)
    (h : traceOK dag s.trace) : traceOK dag (acceptTxStep dag s t).trace := by
  unfold acceptTxStep
  split
  · exact h
  · split
    · rename_i hcond
      show traceOK dag (s.trace ++ [.tx t])
      unfold traceOK
      rw [traceOKFrom_append]
      exact ⟨h, hcond.2⟩
    · exact h

theorem acceptVtxStep_traceOK (dag : Dag) (s : BState) (v : Nat)
    (h : traceOK dag s.trace) : traceOK dag (acceptVtxStep dag s v).trace := by
  unfold acceptVtxStep
  split
  · exact h
  · cases hv : dag.getVtx v with
    | none => exact h
    | some vt =>
      show traceOK dag (if (∀ p ∈ vt.parents, p ∈ vtxIds s.trace) ∧
          ∀ t ∈ vt.txs, t ∈ txIds s.trace then
          { s with trace := s.trace ++ [Ev.vtx v] } else s).trace
      split
      · rename_i hcond
        show traceOK dag (s.trace ++ [.vtx v])
        unfold traceOK
        rw [traceOKFrom_append]
        exact ⟨h, vt, hv, hcond.1, hcond.2⟩
      · exact h

theorem drainSweep_traceOK (dag : Dag) (st : BState) (h : traceOK dag st.trace) :
    traceOK dag (drainSweep dag st).trace := by
  unfold drainSweep
  refine foldl_preserve (fun s => traceOK dag s.trace) (acceptVtxStep dag)
    (fun s a hs => acceptVtxStep_traceOK dag s a hs) _ _ ?_
  refine foldl_preserve (fun s => traceOK dag s.trace) (txsFold dag)
    (fun s a hs => ?_) _ _ h
  exact foldl_preserve (fun x => traceOK dag x.trace) (acceptTxStep dag)
    (fun x b hx => acceptTxStep_traceOK dag x b hx) _ _ hs

theorem drain_traceOK (dag : Dag) :
    ∀ (n : Nat) (st : BState), traceOK dag st.trace → traceOK dag (drain dag n st).trace := by
  intro n
  induction n with
  | zero => intro st h; exact h
  | succ n ih => intro st h; exact ih _ (drainSweep_traceOK dag st h)

/-! ### The engine invariant and its preservation. -/

def Inv (dag : Dag) (st : BState) : Prop :=
  traceOK dag st.trace ∧ st.finished ≤ 1 ∧ (st.finished = 1 → st.outstanding = []) ∧ ReqInv st

theorem tryFinish_inv (dag : Dag) (st : BState) (h : Inv dag st) :
    Inv dag (tryFinish dag st) := by
  obtain ⟨htr, hf1, hf2, hreq⟩ := h
  unfold tryFinish
  split
  · rename_i hc
    obtain ⟨d1, d2, d3, _, _, _, _, d8, _, _⟩ := drain_acceptFrame dag (drainFuel dag) st
    refine ⟨drain_traceOK dag _ st htr, ?_, ?_, ?_, ?_⟩
    · simp [d8, hc.2]
    · intro _; simp [d1, hc.1]
    · intro r hr; rw [d1] at hr; rw [d3]; exact hreq.1 r hr
    · intro r hr; rw [d2] at hr; rw [d3]; exact hreq.2 r hr
  · exact ⟨htr, hf1, hf2, hreq⟩

/-- The request phase (`fetch`, `procLoop`, `issueRequest`) preserves the
pre-completion invariant. -/
def PreInv (dag : Dag) (st : BState) : Prop :=
  traceOK dag st.trace ∧ st.finished = 0 ∧ ReqInv st

theorem preInv_inv (dag : Dag) (st : BState) (h : PreInv dag st) : Inv dag st := by
  obtain ⟨htr, hfin, hreq⟩ := h
  exact ⟨htr, by omega, fun h1 => absurd (hfin.symm.trans h1) (by decide), hreq⟩

theorem fetch_preInv (dag : Dag) (st : BState) (v : Nat) (h : PreInv dag st) :
    PreInv dag (fetch dag st v) := by
  obtain ⟨htr, hfin, hreq⟩ := h
  unfold fetch
  split
  · exact ⟨htr, hfin, hreq⟩
  · split
    · obtain ⟨p1, p2, _, _⟩ := procLoop_procFrame dag (procFuel dag) st [v]
      exact ⟨p1 ▸ htr, p2 ▸ hfin, procLoop_reqInv dag _ st [v] hreq⟩
    · split
      · exact ⟨htr, hfin, hreq⟩
      · exact ⟨htr, hfin, issueRequest_reqInv st v hreq⟩

theorem removeReq_preInv (dag : Dag) (st : BState) (reqID : Nat) (h : PreInv dag st) :
    PreInv dag (removeReq st reqID) :=
  ⟨h.1, h.2.1, removeReq_reqInv st reqID h.2.2⟩

theorem storeParsed_preInv (dag : Dag) (st : BState) (bs : List Nat) (h : PreInv dag st) :
    PreInv dag (storeParsed dag st bs) := by
  obtain ⟨s1, s2, s3, s4, s5, _, _⟩ := storeParsed_storeFrame dag st bs
  refine ⟨s4 ▸ h.1, s5 ▸ h.2.1, ?_, ?_⟩
  · intro r hr; rw [s1] at hr; rw [s3]; exact h.2.2.1 r hr
  · intro r hr; rw [s2] at hr; rw [s3]; exact h.2.2.2 r hr

theorem procLoop_preInv (dag : Dag) (fuel : Nat) (st : BState) (w : List Nat)
    (h : PreInv dag st) : PreInv dag (procLoop dag fuel st w) := by
  obtain ⟨p1, p2, _, _⟩ := procLoop_procFrame dag fuel st w
  exact ⟨p1 ▸ h.1, p2 ▸ h.2.1, procLoop_reqInv dag fuel st w h.2.2⟩

theorem lookupReq_mem (st : BState) (reqID v : Nat) (h : lookupReq st reqID = some v) :
    (reqID, v) ∈ st.outstanding := by
  unfold lookupReq at h
  cases hf : st.outstanding.find? (fun r => r.1 == reqID) with
  | none => rw [hf] at h; simp at h
  | some r =>
    rw [hf] at h
    simp only [Option.map_some', Option.some_inj] at h
    have hmem := List.mem_of_find?_eq_some hf
    have hp := List.find?_some hf
    simp only [beq_iff_eq] at hp
    have : r = (reqID, v) := by
      cases r; simp_all
    exact this ▸ hmem

theorem multiPutBody_inv (dag : Dag) (st : BState) (v : Nat) (containers : List Nat)
    (h : PreInv dag st) : Inv dag (multiPutBody dag st v containers) := by
  cases containers with
  | nil => exact tryFinish_inv dag _ (preInv_inv dag _ (fetch_preInv dag _ v h))
  | cons c0 rest =>
    show Inv dag (match parse dag c0 with
      | none => tryFinish dag (fetch dag st v)
      | some vt0 =>
        if vt0.vid ≠ v then issueRequest (storeParsed dag st rest) v
        else tryFinish dag (procLoop dag (procFuel dag)
          (storeParsed dag st (c0 :: rest)) [v]))
    cases parse dag c0 with
    | none => exact tryFinish_inv dag _ (preInv_inv dag _ (fetch_preInv dag _ v h))
    | some vt0 =>
      show Inv dag (if vt0.vid ≠ v then _ else _)
      split
      · have h1 := storeParsed_preInv dag _ rest h
        exact preInv_inv dag _ ⟨h1.1, h1.2.1, issueRequest_reqInv _ v h1.2.2⟩
      · exact tryFinish_inv dag _ (preInv_inv dag _
          (procLoop_preInv dag _ _ [v] (storeParsed_preInv dag _ _ h)))

/-- An engine with a live request has not completed yet. -/
theorem inv_finished_zero (dag : Dag) (st : BState) (h : Inv dag st) (reqID v : Nat)
    (hl : lookupReq st reqID = some v) : st.finished = 0 := by
  obtain ⟨_, hf1, hf2, _⟩ := h
  have hout : st.outstanding ≠ [] := by
    intro he
    have := lookupReq_mem st reqID v hl
    rw [he] at this
    simp at this
  rcases Nat.lt_or_ge st.finished 1 with h1 | h1
  · omega
  · exact absurd (hf2 (by omega)) hout

theorem multiPut_inv (dag : Dag) (st : BState) (reqID : Nat) (containers : List Nat)
    (h : Inv dag st) : Inv dag (multiPut dag st reqID containers) := by
  unfold multiPut
  cases hl : lookupReq st reqID with
  | none => exact h
  | some v =>
    exact multiPutBody_inv dag _ v containers
      (removeReq_preInv dag st reqID
        ⟨h.1, inv_finished_zero dag st h reqID v hl, h.2.2.2⟩)

theorem getAncestorsFailed_inv (dag : Dag) (st : BState) (reqID : Nat)
    (h : Inv dag st) : Inv dag (getAncestorsFailed dag st reqID) := by
  unfold getAncestorsFailed
  cases hl : lookupReq st reqID with
  | none => exact h
  | some v =>
    exact tryFinish_inv dag _ (preInv_inv dag _ (fetch_preInv dag _ v
      (removeReq_preInv dag st reqID
        ⟨h.1, inv_finished_zero dag st h reqID v hl, h.2.2.2⟩)))

theorem forceAccepted_inv (dag : Dag) (stored txKnown frontierIDs : List Nat) :
    Inv dag (forceAccepted dag (initState stored txKnown) frontierIDs) := by
  unfold forceAccepted
  refine tryFinish_inv dag _ (preInv_inv dag _ ?_)
  refine foldl_preserve (PreInv dag) (fetch dag) (fun s a hs => fetch_preInv dag s a hs)
    frontierIDs _ ?_
  refine ⟨trivial, rfl, ?_, ?_⟩ <;> intro r hr <;> exact absurd hr (List.not_mem_nil r)

/-- Every reachable engine state satisfies the invariant. -/
theorem reachable_inv (dag : Dag) (st : BState) (h : Reachable dag st) : Inv dag st := by
  induction h with
  | boot stored txKnown frontierIDs => exact forceAccepted_inv dag stored txKnown frontierIDs
  | put st reqID containers _ ih => exact multiPut_inv dag st reqID containers ih
  | failed st reqID _ ih => exact getAncestorsFailed_inv dag st reqID ih

/-! ### Parentless, transaction-free vertices are accepted outright. -/

theorem procLoop_nil (dag : Dag) : ∀ (fuel : Nat) (st : BState), procLoop dag fuel st [] = st := by
  intro fuel st
  cases fuel <;> rfl

theorem procLoop_single_noparent (dag : Dag) (n : Nat) (st : BState) (f : Nat)
    (hvt : dag.getVtx f = some ⟨f, [], []⟩) (hnp : f ∉ st.toProcess)
    (hntr : f ∉ vtxIds st.trace) :
    procLoop dag (n + 1) st [f] =
      { st with toProcess := st.toProcess ++ [f], txKnown := st.txKnown ++ [] } := by
  simp only [procLoop]
  rw [if_neg (by tauto), hvt]
  exact procLoop_nil dag n _

theorem vtxIds_mono (tr ext : List Ev) (x : Nat) (h : x ∈ vtxIds tr) :
    x ∈ vtxIds (tr ++ ext) := by
  simp only [vtxIds, List.filterMap_append, List.mem_append]
  exact Or.inl h

theorem procLoop_toProcess_mono (dag : Dag) :
    ∀ (fuel : Nat) (st : BState) (w : List Nat) (x : Nat),
      x ∈ st.toProcess → x ∈ (procLoop dag fuel st w).toProcess := by
  intro fuel
  induction fuel with
  | zero => intro st w x h; exact h
  | succ fuel ih =>
    intro st w x h
    match w with
    | [] => exact h
    | v :: work =>
      simp only [procLoop]
      split
      · exact ih st work x h
      · cases hv : dag.getVtx v with
        | none => exact ih st work x h
        | some vt =>
          apply ih
          refine foldl_preserve (fun s => x ∈ s.toProcess) reqStep (fun s p hs => ?_) _ _ ?_
          · unfold reqStep
            split
            · exact hs
            · exact hs
          · simp [h]

theorem fetch_toProcess_mono (dag : Dag) (s : BState) (a x : Nat)
    (h : x ∈ s.toProcess) : x ∈ (fetch dag s a).toProcess := by
  unfold fetch
  split
  · exact h
  · split
    · exact procLoop_toProcess_mono dag (procFuel dag) s [a] x h
    · split
      · exact h
      · exact h

theorem fetch_noparent_props (dag : Dag) (st : BState) (f : Nat)
    (hstored : f ∈ st.stored) (hvt : dag.getVtx f = some ⟨f, [], []⟩)
    (htrace : st.trace = []) :
    (fetch dag st f).outstanding = st.outstanding ∧
    (fetch dag st f).requests = st.requests ∧
    (fetch dag st f).finished = st.finished ∧
    (fetch dag st f).stored = st.stored ∧
    (fetch dag st f).trace = st.trace ∧
    f ∈ (fetch dag st f).toProcess ∧
    (∀ x ∈ st.toProcess, x ∈ (fetch dag st f).toProcess) := by
  have hntr : f ∉ vtxIds st.trace := by rw [htrace]; simp [vtxIds]
  unfold fetch
  rw [if_neg hntr, if_pos hstored]
  obtain ⟨m, hm⟩ : ∃ m, procFuel dag = m + 1 :=
    ⟨dag.vtxs.length * dag.vtxs.length + 2 * dag.vtxs.length, by unfold procFuel; ring⟩
  rw [hm]
  by_cases hnp : f ∈ st.toProcess
  · have : procLoop dag (m + 1) st [f] = procLoop dag m st [] := by
      simp only [procLoop]
      rw [if_pos (Or.inl hnp)]
    rw [this, procLoop_nil]
    exact ⟨rfl, rfl, rfl, rfl, rfl, hnp, fun x hx => hx⟩
  · rw [procLoop_single_noparent dag m st f hvt hnp hntr]
    refine ⟨rfl, rfl, rfl, rfl, rfl, by simp, fun x hx => by simp [hx]⟩

theorem foldl_fetch_noparents (dag : Dag) (fs : List Nat) :
    ∀ (st : BState),
      (∀ f ∈ fs, f ∈ st.stored ∧ dag.getVtx f = some ⟨f, [], []⟩) →
      st.trace = [] →
      (fs.foldl (fetch dag) st).outstanding = st.outstanding ∧
      (fs.foldl (fetch dag) st).requests = st.requests ∧
      (fs.foldl (fetch dag) st).finished = st.finished ∧
      (fs.foldl (fetch dag) st).stored = st.stored ∧
      (fs.foldl (fetch dag) st).trace = [] ∧
      (∀ f ∈ fs, f ∈ (fs.foldl (fetch dag) st).toProcess) := by
  induction fs with
  | nil => intro st _ htr; exact ⟨rfl, rfl, rfl, rfl, htr, by simp⟩
  | cons f fs ih =>
    intro st h htr
    obtain ⟨hf, hvt⟩ := h f (by simp)
    obtain ⟨p1, p2, p3, p4, p5, p6, p7⟩ :=
      fetch_noparent_props dag st f hf hvt htr
    have htr' : (fetch dag st f).trace = [] := p5.trans htr
    obtain ⟨q1, q2, q3, q4, q5, q6⟩ := ih (fetch dag st f)
      (fun g hg => ⟨p4 ▸ (h g (by simp [hg])).1, (h g (by simp [hg])).2⟩) htr'
    refine ⟨q1.trans p1, q2.trans p2, q3.trans p3, q4.trans p4, q5, ?_⟩
    intro g hg
    rcases List.mem_cons.mp hg with hg | hg
    · rw [hg]
      exact foldl_preserve (fun s => f ∈ s.toProcess) (fetch dag)
        (fun s a hs => fetch_toProcess_mono dag s a f hs) fs (fetch dag st f) p6
    · exact q6 g hg

theorem acceptVtxStep_mem (dag : Dag) (s : BState) (v : Nat)
    (hvt : dag.getVtx v = some ⟨v, [], []⟩) :
    v ∈ vtxIds (acceptVtxStep dag s v).trace := by
  unfold acceptVtxStep
  split
  · assumption
  · rw [hvt]
    show v ∈ vtxIds (if (∀ p ∈ ([] : List Nat), p ∈ vtxIds s.trace) ∧
        (∀ t ∈ ([] : List Nat), t ∈ txIds s.trace) then
        { s with trace := s.trace ++ [Ev.vtx v] } else s).trace
    rw [if_pos (by simp)]
    show v ∈ vtxIds (s.trace ++ [Ev.vtx v])
    simp [vtxIds, List.filterMap_append]

theorem acceptStep_mem_mono (dag : Dag) (s : BState) (a x : Nat)
    (h : x ∈ vtxIds s.trace) : x ∈ vtxIds (acceptVtxStep dag s a).trace := by
  obtain ⟨_, _, _, _, _, _, _, _, ext, hext⟩ :=
    acceptVtxStep_acceptFrame dag s s a (acceptFrame_refl s)
  rw [hext]
  exact vtxIds_mono _ _ _ h

theorem acceptFold_mem (dag : Dag) (l : List Nat) :
    ∀ (s : BState) (f : Nat), f ∈ l → dag.getVtx f = some ⟨f, [], []⟩ →
      f ∈ vtxIds (l.foldl (acceptVtxStep dag) s).trace := by
  induction l with
  | nil => intro s f hf _; simp at hf
  | cons a l ih =>
    intro s f hf hvt
    rcases List.mem_cons.mp hf with hf | hf
    · rw [hf]
      exact foldl_preserve (fun x => a ∈ vtxIds x.trace) (acceptVtxStep dag)
        (fun x b hx => acceptStep_mem_mono dag x b a hx) l (acceptVtxStep dag s a)
        (hf ▸ acceptVtxStep_mem dag s f hvt)
    · exact ih (acceptVtxStep dag s a) f hf hvt

theorem sweepTxs_acceptFrame (dag : Dag) (st : BState) : AcceptFrame st (sweepTxs dag st) :=
  foldl_preserve (AcceptFrame st) (txsFold dag) (txsFold_acceptFrame dag st) st.toProcess st
    (acceptFrame_refl st)

theorem drainSweep_mem (dag : Dag) (st : BState) (f : Nat) (hf : f ∈ st.toProcess)
    (hvt : dag.getVtx f = some ⟨f, [], []⟩) :
    f ∈ vtxIds (drainSweep dag st).trace := by
  unfold drainSweep
  apply acceptFold_mem dag _ _ f ?_ hvt
  rw [(sweepTxs_acceptFrame dag st).2.2.2.2.2.1]
  exact hf

theorem drain_mem_noparent (dag : Dag) (n : Nat) (st : BState) (f : Nat)
    (hf : f ∈ st.toProcess) (hvt : dag.getVtx f = some ⟨f, [], []⟩) :
    f ∈ vtxIds (drain dag (n + 1) st).trace := by
  show f ∈ vtxIds (drain dag n (drainSweep dag st)).trace
  obtain ⟨_, _, _, _, _, _, _, _, ext, hext⟩ := drain_acceptFrame dag n (drainSweep dag st)
  rw [hext]
  exact vtxIds_mono _ _ _ (drainSweep_mem dag st f hf hvt)

/-! ### The concrete scenarios of the bootstrap test suite. -/

/-- Byzantine-response scenario: frontier vertex 1 (stored) has unknown
parent 0; vertex 2 is unrelated. -/
def bzDag : Dag := ⟨[⟨0, [], []⟩, ⟨1, [0], []⟩, ⟨2, [], []⟩], []⟩

def bzRun0 : BState := forceAccepted bzDag (initState [1] []) [1]

def bzRun1 : BState := multiPut bzDag bzRun0 0 [2]

def bzRun2 : BState := multiPut bzDag bzRun1 1 [0, 2]

/-- Missing-tx-dependency scenario: frontier vertex 11 (stored) carries
transaction 101 whose dependency 100 is nowhere; parent vertex 10 is
fetched. -/
def mdDag : Dag := ⟨[⟨10, [], []⟩, ⟨11, [10], [101]⟩], [⟨101, [100]⟩]⟩

def mdRun : BState := multiPut mdDag (forceAccepted mdDag (initState [11] [101]) [11]) 0 [10]

/-- MultiPut-with-parents scenario: chain 2 → 1 → 0, nothing stored, all
three ancestors arrive in one response in reverse-height order. -/
def mpDag : Dag := ⟨[⟨0, [], []⟩, ⟨1, [0], []⟩, ⟨2, [1], []⟩], []⟩

def mpRun : BState := multiPut mpDag (forceAccepted mpDag (initState [] []) [2]) 0 [2, 1, 0]

/-- Tx-dependency scenario: vertex 10 carries transaction 101 which depends
on transaction 100 carried by frontier vertex 11. -/
def tdDag : Dag := ⟨[⟨10, [], [101]⟩, ⟨11, [10], [100]⟩], [⟨100, []⟩, ⟨101, [100]⟩]⟩

def tdRun : BState := multiPut tdDag (forceAccepted tdDag (initState [11] [100]) [11]) 0 [10]

/-- Single-frontier scenario: three stored vertices without parents. -/
def sfDag : Dag := ⟨[⟨0, [], []⟩, ⟨1, [], []⟩, ⟨2, [], []⟩], []⟩

theorem multiPut_eq_body (dag : Dag) (st : BState) (reqID v : Nat) (containers : List Nat)
    (hl : lookupReq st reqID = some v) :
    multiPut dag st reqID containers = multiPutBody dag (removeReq st reqID) v containers := by
  unfold multiPut
  rw [hl]

theorem multiPutBody_unexpected (dag : Dag) (st : BState) (v c0 : Nat) (rest : List Nat)
    (vt0 : Vtx) (hp : parse dag c0 = some vt0) (hne : vt0.vid ≠ v) :
    multiPutBody dag st v (c0 :: rest) = issueRequest (storeParsed dag st rest) v := by
  show (match parse dag c0 with
    | none => tryFinish dag (fetch dag st v)
    | some vt0 =>
      if vt0.vid ≠ v then issueRequest (storeParsed dag st rest) v
      else tryFinish dag (procLoop dag (procFuel dag) (storeParsed dag st (c0 :: rest)) [v]))
    = issueRequest (storeParsed dag st rest) v
  rw [hp]
  show (if vt0.vid ≠ v then issueRequest (storeParsed dag st rest) v
    else tryFinish dag (procLoop dag (procFuel dag) (storeParsed dag st (c0 :: rest)) [v]))
    = issueRequest (storeParsed dag st rest) v
  rw [if_pos hne]

end Bootstrap

/-- C1: for an outstanding `GetAncestors` request `(reqID, V)`, a `MultiPut`
whose first container parses to a vertex other than `V` makes the engine
reissue `GetAncestors` for `V` under a fresh request id (the new id was
never used before) without failing bootstrap (`onFinished` count is
untouched); when a later `MultiPut`'s first container is `V`, the engine
accepts `V` and the frontier vertex depending on it, while the unexpected
extra vertex is never marked `Accepted` — shown on the byzantine scenario
of the test suite. -/
theorem C1_byzantine_reissue :
    (∀ (dag : Bootstrap.Dag) (st : Bootstrap.BState) (reqID v c0 : Nat)
      (rest : List Nat) (vt0 : Bootstrap.Vtx),
      Bootstrap.Reachable dag st → Bootstrap.lookupReq st reqID = some v →
      Bootstrap.parse dag c0 = some vt0 → vt0.vid ≠ v →
      (st.nextReq, v) ∈ (Bootstrap.multiPut dag st reqID (c0 :: rest)).outstanding ∧
      (∀ r ∈ st.requests, r.1 ≠ st.nextReq) ∧
      (Bootstrap.multiPut dag st reqID (c0 :: rest)).requests =
        st.requests ++ [(st.nextReq, v)] ∧
      (Bootstrap.multiPut dag st reqID (c0 :: rest)).finished = st.finished) ∧
    Bootstrap.bzRun0.requests = [(0, 0)] ∧
    Bootstrap.bzRun1.requests = [(0, 0), (1, 0)] ∧
    Bootstrap.bzRun1.finished = 0 ∧
    Bootstrap.bzRun2.finished = 1 ∧
    Bootstrap.vtxStatus Bootstrap.bzRun2 0 = .Accepted ∧
    Bootstrap.vtxStatus Bootstrap.bzRun2 1 = .Accepted ∧
    Bootstrap.vtxStatus Bootstrap.bzRun2 2 ≠ .Accepted := by
  refine ⟨?_, by decide, by decide, by decide, by decide, by decide, by decide, by decide⟩
  intro dag st reqID v c0 rest vt0 hreach hl hp hne
  have hreq := (Bootstrap.reachable_inv dag st hreach).2.2.2
  rw [Bootstrap.multiPut_eq_body dag st reqID v _ hl,
    Bootstrap.multiPutBody_unexpected dag _ v c0 rest vt0 hp hne]
  obtain ⟨s1, s2, s3, _, s5, _, _⟩ :=
    Bootstrap.storeParsed_storeFrame dag (Bootstrap.removeReq st reqID) rest
  refine ⟨?_, ?_, ?_, ?_⟩
  · show (st.nextReq, v) ∈
      (Bootstrap.storeParsed dag (Bootstrap.removeReq st reqID) rest).outstanding ++
        [((Bootstrap.storeParsed dag (Bootstrap.removeReq st reqID) rest).nextReq, v)]
    rw [s3]
    exact List.mem_append_right _ (List.mem_singleton.mpr rfl)
  · intro r hr
    exact Nat.ne_of_lt (hreq.2 r hr)
  · show (Bootstrap.storeParsed dag (Bootstrap.removeReq st reqID) rest).requests ++
      [((Bootstrap.storeParsed dag (Bootstrap.removeReq st reqID) rest).nextReq, v)] =
      st.requests ++ [(st.nextReq, v)]
    rw [s2, s3]
    rfl
  · show (Bootstrap.storeParsed dag (Bootstrap.removeReq st reqID) rest).finished = st.finished
    rw [s5]
    rfl

/-- Witness for C1: the first byzantine `MultiPut` of the scenario — request
0 for vertex 0 answered with vertex 2 — reissues the request under the
fresh id 1 and does not complete bootstrap. -/
theorem C1_byzantine_reissue_witness :
    (Bootstrap.bzRun0.nextReq, 0) ∈
      (Bootstrap.multiPut Bootstrap.bzDag Bootstrap.bzRun0 0 [2]).outstanding ∧
    (Bootstrap.multiPut Bootstrap.bzDag Bootstrap.bzRun0 0 [2]).finished =
      Bootstrap.bzRun0.finished := by
  have h := C1_byzantine_reissue.1 Bootstrap.bzDag Bootstrap.bzRun0 0 0 2 []
    ⟨2, [], []⟩ (Bootstrap.Reachable.boot [1] [] [1]) (by decide) (by decide) (by decide)
  exact ⟨h.1, h.2.2.2⟩

/-- C2 counterexample: in the missing-tx-dependency scenario (the repo's
`TestBootstrapperMissingTxDependency`), `onFinished` fires while the
frontier vertex 11 still has status `Processing` (its transaction 101 waits
on the unknown transaction 100), refuting the claim that `onFinished` never
fires while some frontier ID is still `Processing`. -/
theorem C2_counterexample_finish_while_processing :
    Bootstrap.mdRun.finished = 1 ∧ Bootstrap.mdRun.frontier = [11] ∧
    Bootstrap.vtxStatus Bootstrap.mdRun 11 = .Processing ∧
    Bootstrap.txStatus Bootstrap.mdRun 101 = .Processing ∧
    Bootstrap.txStatus Bootstrap.mdRun 100 = .Unknown ∧
    Bootstrap.vtxStatus Bootstrap.mdRun 10 = .Accepted := by
  refine ⟨by decide, by decide, by decide, by decide, by decide, by decide⟩

/-- C2 (amended): `onFinished` fires at most once per bootstrap, and only
at a point where the needed-vertex set (the outstanding `GetAncestors`
requests) is empty; a frontier vertex whose transaction has a missing
dependency may remain `Processing` when it fires. -/
theorem C2_finish_at_most_once (dag : Bootstrap.Dag) (st : Bootstrap.BState)
    (h : Bootstrap.Reachable dag st) :
    st.finished ≤ 1 ∧ (st.finished = 1 → st.outstanding = []) :=
  ⟨(Bootstrap.reachable_inv dag st h).2.1, (Bootstrap.reachable_inv dag st h).2.2.1⟩

/-- Witness for C2 at the missing-tx-dependency run. -/
theorem C2_finish_at_most_once_witness :
    Bootstrap.mdRun.finished ≤ 1 ∧
      (Bootstrap.mdRun.finished = 1 → Bootstrap.mdRun.outstanding = []) :=
  C2_finish_at_most_once Bootstrap.mdDag Bootstrap.mdRun
    (Bootstrap.Reachable.put _ 0 [10] (Bootstrap.Reachable.boot [11] [101] [11]))

/-- C3: in every reachable engine state the acceptance trace is
topological — when a vertex is accepted, each of its parents and each of
its transactions was accepted strictly earlier, and when a transaction is
accepted, each of its dependencies was accepted strictly earlier; this
holds in particular when all ancestors arrive in one `MultiPut` in
reverse-height order (scenario: chain 2 → 1 → 0 served as `[2, 1, 0]`, all
accepted with no further request), and transaction dependencies are
respected (scenario: trace accepts tx 100 before tx 101 which depends on
it, and vertices after their transactions). -/
theorem C3_topological_acceptance :
    (∀ (dag : Bootstrap.Dag) (st : Bootstrap.BState), Bootstrap.Reachable dag st →
      (∀ (l : List Bootstrap.Ev) (v : Nat) (r : List Bootstrap.Ev),
        st.trace = l ++ .vtx v :: r →
        ∃ vt, dag.getVtx v = some vt ∧ (∀ p ∈ vt.parents, p ∈ Bootstrap.vtxIds l) ∧
          (∀ t ∈ vt.txs, t ∈ Bootstrap.txIds l)) ∧
      (∀ (l : List Bootstrap.Ev) (t : Nat) (r : List Bootstrap.Ev),
        st.trace = l ++ .tx t :: r → ∀ d ∈ dag.txDeps t, d ∈ Bootstrap.txIds l)) ∧
    Bootstrap.mpRun.finished = 1 ∧ Bootstrap.mpRun.requests = [(0, 2)] ∧
    Bootstrap.vtxStatus Bootstrap.mpRun 0 = .Accepted ∧
    Bootstrap.vtxStatus Bootstrap.mpRun 1 = .Accepted ∧
    Bootstrap.vtxStatus Bootstrap.mpRun 2 = .Accepted ∧
    Bootstrap.tdRun.trace = [.tx 100, .tx 101, .vtx 10, .vtx 11] := by
  refine ⟨?_, by decide, by decide, by decide, by decide, by decide, by decide⟩
  intro dag st hreach
  have htr := (Bootstrap.reachable_inv dag st hreach).1
  constructor
  · intro l v r heq
    have hg := Bootstrap.traceOKFrom_split dag l [] (.vtx v) r (by rw [← heq]; exact htr)
    simpa [Bootstrap.guardOK] using hg
  · intro l t r heq
    have hg := Bootstrap.traceOKFrom_split dag l [] (.tx t) r (by rw [← heq]; exact htr)
    simpa [Bootstrap.guardOK] using hg

/-- Witness for C3 at the multiput-with-parents run: vertex 1's accept
event sits after its parent vertex 0's. -/
theorem C3_topological_acceptance_witness :
    ∃ vt, Bootstrap.mpDag.getVtx 1 = some vt ∧
      (∀ p ∈ vt.parents, p ∈ Bootstrap.vtxIds [Bootstrap.Ev.vtx 0]) ∧
      (∀ t ∈ vt.txs, t ∈ Bootstrap.txIds [Bootstrap.Ev.vtx 0]) :=
  ((C3_topological_acceptance.1 Bootstrap.mpDag Bootstrap.mpRun
    (Bootstrap.Reachable.put _ 0 [2, 1, 0] (Bootstrap.Reachable.boot [] [] [2]))).1
    [.vtx 0] 1 [.vtx 2] (by decide))

/-- C4: when `ForceAccepted` is called on a fresh engine with frontier
vertex ids that are all known locally and have no parents (and carry no
transactions, as in the single-frontier scenario), every one of them is
marked `Accepted`, no `GetAncestors` request is issued, and `onFinished`
fires. -/
theorem C4_force_accepted_no_parents (dag : Bootstrap.Dag)
    (stored txKnown frontierIDs : List Nat)
    (h : ∀ f ∈ frontierIDs, f ∈ stored ∧ dag.getVtx f = some ⟨f, [], []⟩) :
    (∀ f ∈ frontierIDs,
      Bootstrap.vtxStatus
        (Bootstrap.forceAccepted dag (Bootstrap.initState stored txKnown) frontierIDs) f =
        .Accepted) ∧
    (Bootstrap.forceAccepted dag (Bootstrap.initState stored txKnown) frontierIDs).requests
      = [] ∧
    (Bootstrap.forceAccepted dag (Bootstrap.initState stored txKnown) frontierIDs).finished
      = 1 := by
  unfold Bootstrap.forceAccepted
  obtain ⟨q1, q2, q3, q4, q5, q6⟩ := Bootstrap.foldl_fetch_noparents dag frontierIDs
    { Bootstrap.initState stored txKnown with frontier := frontierIDs } h rfl
  set st1 := frontierIDs.foldl (Bootstrap.fetch dag)
    { Bootstrap.initState stored txKnown with frontier := frontierIDs } with hst1
  unfold Bootstrap.tryFinish
  rw [if_pos ⟨q1.trans rfl, q3.trans rfl⟩]
  obtain ⟨d1, d2, d3, d4, d5, d6, d7, d8, ext, hext⟩ :=
    Bootstrap.drain_acceptFrame dag (Bootstrap.drainFuel dag) st1
  refine ⟨?_, ?_, ?_⟩
  · intro f hf
    have hmem : f ∈ Bootstrap.vtxIds
        (Bootstrap.drain dag (Bootstrap.drainFuel dag) st1).trace :=
      Bootstrap.drain_mem_noparent dag _ st1 f (q6 f hf) (h f hf).2
    unfold Bootstrap.vtxStatus
    rw [if_pos hmem]
  · show (Bootstrap.drain dag (Bootstrap.drainFuel dag) st1).requests = []
    rw [d2]
    exact q2.trans rfl
  · show (Bootstrap.drain dag (Bootstrap.drainFuel dag) st1).finished + 1 = 1
    rw [d8, q3]
    rfl

/-- Witness for C4 at the single-frontier scenario: three parentless
stored vertices, all accepted, no request, finished. -/
theorem C4_force_accepted_no_parents_witness :
    (∀ f ∈ [0, 1, 2],
      Bootstrap.vtxStatus (Bootstrap.forceAccepted Bootstrap.sfDag
        (Bootstrap.initState [0, 1, 2] []) [0, 1, 2]) f = .Accepted) ∧
    (Bootstrap.forceAccepted Bootstrap.sfDag (Bootstrap.initState [0, 1, 2] [])
      [0, 1, 2]).requests = [] ∧
    (Bootstrap.forceAccepted Bootstrap.sfDag (Bootstrap.initState [0, 1, 2] [])
      [0, 1, 2]).finished = 1 :=
  C4_force_accepted_no_parents Bootstrap.sfDag [0, 1, 2] [] [0, 1, 2] (by decide)

/-! ## UTXOID canonical ordering (`vms/components/djtx/utxo_id.go`)

`IsSortedAndUniqueUTXOIDs` applies `utils.IsSortedAndUnique` (modelled from
the spec as the pairwise strict-order check) to `innerSortUTXOIDs.Less`,
which compares `InputSource()` pairs: the raw `TxID` bytes
(`bytes.Compare`), then `OutputIndex`.  `UTXOID.InputID` is
`TxID.Prefix(OutputIndex)`, i.e. `sha256(u64be(OutputIndex) ‖ TxID)`
(`ids.ID.Prefix` over `hashing.ComputeHash256`), which we embed in full so
that the spec's claimed `(assetID, inputID)` order can be compared with the
code's order. -/

namespace UTXOIDSort

def rotr (n x : Nat) : Nat := ((x >>> n) ||| (x <<< (32 - n))) % 2 ^ 32

def lsig0 (x : Nat) : Nat := rotr 7 x ^^^ rotr 18 x ^^^ (x >>> 3)
def lsig1 (x : Nat) : Nat := rotr 17 x ^^^ rotr 19 x ^^^ (x >>> 10)
def bsig0 (x : Nat) : Nat := rotr 2 x ^^^ rotr 13 x ^^^ rotr 22 x
def bsig1 (x : Nat) : Nat := rotr 6 x ^^^ rotr 11 x ^^^ rotr 25 x
def chf (x y z : Nat) : Nat := (x &&& y) ^^^ ((x ^^^ (2 ^ 32 - 1)) &&& z)
def majf (x y z : Nat) : Nat := (x &&& y) ^^^ (x &&& z) ^^^ (y &&& z)

def shaK : List Nat :=
  [1116352408, 1899447441, 3049323471, 3921009573, 961987163, 1508970993, 2453635748, 2870763221,
    3624381080, 310598401, 607225278, 1426881987, 1925078388, 2162078206, 2614888103, 3248222580,
    3835390401, 4022224774, 264347078, 604807628, 770255983, 1249150122, 1555081692, 1996064986,
    2554220882, 2821834349, 2952996808, 3210313671, 3336571891, 3584528711, 113926993, 338241895,
    666307205, 773529912, 1294757372, 1396182291, 1695183700, 1986661051, 2177026350, 2456956037,
    2730485921, 2820302411, 3259730800, 3345764771, 3516065817, 3600352804, 4094571909, 275423344,
    430227734, 506948616, 659060556, 883997877, 958139571, 1322822218, 1537002063, 1747873779,
    1955562222, 2024104815, 2227730452, 2361852424, 2428436474, 2756734187, 3204031479,
    3329325298]

def shaH0 : List Nat :=
  [1779033703, 3144134277, 1013904242, 2773480762, 1359893119, 2600822924, 528734635, 1541459225]

def toWords : List Nat → List Nat
  | b0 :: b1 :: b2 :: b3 :: rest => (((b0 * 256 + b1) * 256 + b2) * 256 + b3) :: toWords rest
  | _ => []

def extendStep (w : List Nat) : List Nat :=
  let n := w.length
  w ++ [(lsig1 (w.getD (n - 2) 0) + w.getD (n - 7) 0 + lsig0 (w.getD (n - 15) 0) +
    w.getD (n - 16) 0) % 2 ^ 32]

def schedule (w16 : List Nat) : List Nat :=
  (List.range 48).foldl (fun w _ => extendStep w) w16

def shaRound (st : List Nat) (kw : Nat × Nat) : List Nat :=
  match st with
  | [a, b, c, d, e, f, g, h] =>
    let t1 := (h + bsig1 e + chf e f g + kw.1 + kw.2) % 2 ^ 32
    let t2 := (bsig0 a + majf a b c) % 2 ^ 32
    [(t1 + t2) % 2 ^ 32, a, b, c, (d + t1) % 2 ^ 32, e, f, g]
  | _ => st

def compressBlock (h : List Nat) (block : List Nat) : List Nat :=
  let w := schedule (toWords block)
  let st := (shaK.zip w).foldl shaRound h
  (h.zip st).map (fun p => (p.1 + p.2) % 2 ^ 32)

/-- `wrappers.Packer.PackLong`: a `u64` as eight big-endian bytes. -/
def packU64 (n : Nat) : List Nat :=
  [n / 2 ^ 56 % 256, n / 2 ^ 48 % 256, n / 2 ^ 40 % 256, n / 2 ^ 32 % 256,
   n / 2 ^ 24 % 256, n / 2 ^ 16 % 256, n / 2 ^ 8 % 256, n % 256]

def wordBytes (n : Nat) : List Nat :=
  [n / 2 ^ 24 % 256, n / 2 ^ 16 % 256, n / 2 ^ 8 % 256, n % 256]

def chunks : Nat → List Nat → List (List Nat)
  | 0, _ => []
  | _ + 1, [] => []
  | fuel + 1, l => l.take 64 :: chunks fuel (l.drop 64)

/-- SHA-256 over a byte string (`hashing.ComputeHash256`). -/
def sha256 (msg : List Nat) : List Nat :=
  let padded := msg ++ 0x80 :: (List.replicate ((119 - msg.length % 64) % 64) 0 ++
    packU64 (8 * msg.length))
  ((chunks (padded.length + 1) padded).foldl compressBlock shaH0).flatMap wordBytes

/-- `djtx.UTXOID`: the serialized fields. -/
structure UTXOID where
  txID : List Nat
  outputIndex : Nat
deriving DecidableEq

/-- `UTXOID.InputID` = `TxID.Prefix(uint64(OutputIndex))`: hash of the
packed `u64` index followed by the id bytes. -/
def inputID (u : UTXOID) : List Nat := sha256 (packU64 u.outputIndex ++ u.txID)

/-- `bytes.Compare`: lexicographic byte order. -/
def bytesCompare : List Nat → List Nat → Ordering
  | [], [] => .eq
  | [], _ :: _ => .lt
  | _ :: _, [] => .gt
  | a :: as, b :: bs => if a < b then .lt else if b < a then .gt else bytesCompare as bs

/-- `innerSortUTXOIDs.Less`: compare `InputSource()` = (TxID, OutputIndex). -/
def utxoidLess (i j : UTXOID) : Bool :=
  match bytesCompare i.txID j.txID with
  | .lt => true
  | .eq => decide (i.outputIndex < j.outputIndex)
  | .gt => false

/-- `djtx.IsSortedAndUniqueUTXOIDs`.  `utils.IsSortedAndUnique` itself is
not among the sources; modelled from the spec as requiring each adjacent
pair to be strictly `Less`-ordered. -/
def isSortedAndUniqueUTXOIDs : List UTXOID → Bool
  | a :: b :: rest => utxoidLess a b && isSortedAndUniqueUTXOIDs (b :: rest)
  | _ => true

/-- Modelled from the spec's words, for refinement comparison only: the
claimed canonical input order `(assetID, inputID)`.  Within one Operation
every UTXOID carries the operation's single asset, so the pairs share the
`assetID` and the order falls to the hash-derived `inputID`. -/
def specLessInput (a1 : List Nat) (i : UTXOID) (a2 : List Nat) (j : UTXOID) : Bool :=
  match bytesCompare a1 a2 with
  | .lt => true
  | .eq => bytesCompare (inputID i) (inputID j) == .lt
  | .gt => false

/-- Modelled from the spec's words: sorted-and-unique under the claimed
`(assetID, inputID)` order. -/
def specSortedUniqueUTXOIDs (assetID : List Nat) : List UTXOID → Bool
  | a :: b :: rest =>
    specLessInput assetID a assetID b && specSortedUniqueUTXOIDs assetID (b :: rest)
  | _ => true

/-- `ids.Empty`: the all-zero 32-byte ID. -/
def emptyID : List Nat := List.replicate 32 0

end UTXOIDSort

/-- C6 counterexample: the UTXOID list `[(Empty, 1), (Empty, 6)]` (one
asset, as in an Operation) is accepted by the code's sortedness check, yet
it is not sorted by the claimed canonical order `(assetID, inputID)`:
`sha256(u64be(1) ‖ 0³²) > sha256(u64be(6) ‖ 0³²)` lexicographically.  This
also refutes the claim's converse half: a list not strictly ordered by
`(assetID, inputID)` is nevertheless accepted. -/
theorem C6_counterexample_order_mismatch :
    UTXOIDSort.isSortedAndUniqueUTXOIDs
      [⟨UTXOIDSort.emptyID, 1⟩, ⟨UTXOIDSort.emptyID, 6⟩] = true ∧
    UTXOIDSort.specSortedUniqueUTXOIDs UTXOIDSort.emptyID
      [⟨UTXOIDSort.emptyID, 1⟩, ⟨UTXOIDSort.emptyID, 6⟩] = false := by
  constructor
  · decide
  · decide

/-- C6 (amended): syntactic verification's sortedness check accepts a
UTXOID list exactly when it is strictly increasing under the code's
canonical order — raw `TxID` bytes lexicographically, then `OutputIndex` —
so every list not strictly ordered by that order is rejected. -/
theorem C6_sorted_unique_utxoids (l : List UTXOIDSort.UTXOID) :
    UTXOIDSort.isSortedAndUniqueUTXOIDs l = true ↔
      List.Chain' (fun a b => UTXOIDSort.utxoidLess a b = true) l := by
  induction l with
  | nil => simp [UTXOIDSort.isSortedAndUniqueUTXOIDs]
  | cons a l ih =>
    cases l with
    | nil => simp [UTXOIDSort.isSortedAndUniqueUTXOIDs]
    | cons b rest =>
      rw [List.chain'_cons, ← ih]
      simp [UTXOIDSort.isSortedAndUniqueUTXOIDs]

/-! ## AddDelegatorTx semantic verification (`vms/platformvm/add_delegator_tx.go`)

`UnsignedAddDelegatorTx.SemanticVerify` returns `(onCommitDB, onAbortDB,
onCommit, onAbort, TxError)`.  We embed its control flow over an
environment record holding the outcomes of the calls it makes: the
syntactic `Verify`, the `vm.getTimestamp` / `vm.isValidator` /
`vm.willBeValidator` database reads (`Except Unit _`, `error` = database
failure), the `vm.semanticVerifySpend` flow check, and the
consume/produce/enqueue writes used to build the commit and abort
databases.  The database contents themselves are irrelevant to the claim
and are modelled as `Unit`.  `Validator.BoundedBy` (not part of the
sources) is modelled from the spec: the delegation period must be a subset
of the validator's period. -/

namespace Delegator

/-- `TxError` dispositions: `permError` and `tempError`. -/
inductive TxErr where
  | perm
  | temp
deriving DecidableEq

structure Env where
  /-- outcome of `tx.Verify` (syntactic verification) -/
  verifyOk : Bool
  /-- `vm.getTimestamp(db)` -/
  getTimestamp : Except Unit Nat
  /-- `tx.StartTime()` / `tx.EndTime()` as Unix seconds -/
  txStart : Nat
  txEnd : Nat
  /-- `vm.isValidator`: `ok (some (start, end))` when currently a validator -/
  isValidatorRes : Except Unit (Option (Nat × Nat))
  /-- `vm.willBeValidator` -/
  willBeValidatorRes : Except Unit (Option (Nat × Nat))
  /-- `vm.semanticVerifySpend`: `none` = success -/
  spendRes : Option TxErr
  consumeCommitOk : Bool
  produceCommitOk : Bool
  enqueueOk : Bool
  consumeAbortOk : Bool
  produceAbortOk : Bool

/-- The 5-tuple collapsed to `(onCommitDB?, onAbortDB?, TxError?)`. -/
abbrev Result := Option Unit × Option Unit × Option TxErr

def fail (e : TxErr) : Result := (none, none, some e)

def success : Result := (some (), some (), none)

/-- Modelled from the spec: `Validator.BoundedBy(start, end)` — the
delegator's `[txStart, txEnd]` lies inside the validator's period. -/
def boundedBy (txStart txEnd vStart vEnd : Nat) : Bool :=
  vStart ≤ txStart && txEnd ≤ vEnd

/-- `UnsignedAddDelegatorTx.SemanticVerify`, control flow as in the source:
syntactic failure ⇒ `permError`; timestamp read failure ⇒ `tempError`;
chain timestamp not before the start time ⇒ `permError`; validator-set read
failures ⇒ `tempError`; delegation period not a subset ⇒ `permError`; then
the spend check's own `TxError` propagates, and the commit/abort database
writes fail with `tempError`. -/
def semanticVerify (e : Env) : Result :=
  if !e.verifyOk then fail .perm
  else
    match e.getTimestamp with
    | .error _ => fail .temp
    | .ok currentTimestamp =>
      if !decide (currentTimestamp < e.txStart) then fail .perm
      else
        let cont : Result :=
          match e.spendRes with
          | some err => fail err
          | none =>
            if !e.consumeCommitOk then fail .temp
            else if !e.produceCommitOk then fail .temp
            else if !e.enqueueOk then fail .temp
            else if !e.consumeAbortOk then fail .temp
            else if !e.produceAbortOk then fail .temp
            else success
        match e.isValidatorRes with
        | .error _ => fail .temp
        | .ok (some (vs, ve)) =>
          if !boundedBy e.txStart e.txEnd vs ve then fail .perm else cont
        | .ok none =>
          match e.willBeValidatorRes with
          | .error _ => fail .temp
          | .ok none => fail .perm
          | .ok (some (vs, ve)) =>
            if !boundedBy e.txStart e.txEnd vs ve then fail .perm else cont

/-- Every run either succeeds with both databases or fails with no
database. -/
theorem semanticVerify_shape (e : Env) :
    semanticVerify e = success ∨ ∃ r, semanticVerify e = fail r := by
  unfold semanticVerify
  repeat' split
  all_goals simp [fail, success]

end Delegator

/-- C8: `UnsignedAddDelegatorTx.SemanticVerify` returns a permanent error
for every rule violation (syntactic failure, chain timestamp not before the
delegator's start time, delegation period not a subset of the validator's
period), a temporary error for every database read failure, and produces no
commit/abort state on any error. -/
theorem C8_add_delegator_semantic_verify :
    (∀ e : Delegator.Env, e.verifyOk = false →
      Delegator.semanticVerify e = Delegator.fail .perm) ∧
    (∀ e : Delegator.Env, e.verifyOk = true → e.getTimestamp = .error () →
      Delegator.semanticVerify e = Delegator.fail .temp) ∧
    (∀ (e : Delegator.Env) (ts : Nat), e.verifyOk = true → e.getTimestamp = .ok ts →
      e.txStart ≤ ts → Delegator.semanticVerify e = Delegator.fail .perm) ∧
    (∀ (e : Delegator.Env) (ts : Nat), e.verifyOk = true → e.getTimestamp = .ok ts →
      ts < e.txStart → e.isValidatorRes = .error () →
      Delegator.semanticVerify e = Delegator.fail .temp) ∧
    (∀ (e : Delegator.Env) (ts vs ve : Nat), e.verifyOk = true → e.getTimestamp = .ok ts →
      ts < e.txStart → e.isValidatorRes = .ok (some (vs, ve)) →
      Delegator.boundedBy e.txStart e.txEnd vs ve = false →
      Delegator.semanticVerify e = Delegator.fail .perm) ∧
    (∀ (e : Delegator.Env) (ts : Nat), e.verifyOk = true → e.getTimestamp = .ok ts →
      ts < e.txStart → e.isValidatorRes = .ok none → e.willBeValidatorRes = .error () →
      Delegator.semanticVerify e = Delegator.fail .temp) ∧
    (∀ (e : Delegator.Env) (ts : Nat), e.verifyOk = true → e.getTimestamp = .ok ts →
      ts < e.txStart → e.isValidatorRes = .ok none → e.willBeValidatorRes = .ok none →
      Delegator.semanticVerify e = Delegator.fail .perm) ∧
    (∀ (e : Delegator.Env) (ts vs ve : Nat), e.verifyOk = true → e.getTimestamp = .ok ts →
      ts < e.txStart → e.isValidatorRes = .ok none →
      e.willBeValidatorRes = .ok (some (vs, ve)) →
      Delegator.boundedBy e.txStart e.txEnd vs ve = false →
      Delegator.semanticVerify e = Delegator.fail .perm) ∧
    (∀ (e : Delegator.Env) (r : Delegator.TxErr),
      (Delegator.semanticVerify e).2.2 = some r →
      (Delegator.semanticVerify e).1 = none ∧ (Delegator.semanticVerify e).2.1 = none) := by
  refine ⟨fun e h => ?_, fun e h1 h2 => ?_, fun e ts h1 h2 h3 => ?_, fun e ts h1 h2 h3 h4 => ?_,
    fun e ts vs ve h1 h2 h3 h4 h5 => ?_, fun e ts h1 h2 h3 h4 h5 => ?_,
    fun e ts h1 h2 h3 h4 h5 => ?_, fun e ts vs ve h1 h2 h3 h4 h5 h6 => ?_,
    fun e r h => ?_⟩
  · simp [Delegator.semanticVerify, h]
  · simp [Delegator.semanticVerify, h1, h2]
  · simp [Delegator.semanticVerify, h1, h2, Nat.not_lt.mpr h3]
  · simp [Delegator.semanticVerify, h1, h2, h3, h4]
  · simp [Delegator.semanticVerify, h1, h2, h3, h4, h5]
  · simp [Delegator.semanticVerify, h1, h2, h3, h4, h5]
  · simp [Delegator.semanticVerify, h1, h2, h3, h4, h5]
  · simp [Delegator.semanticVerify, h1, h2, h3, h4, h5, h6]
  · rcases Delegator.semanticVerify_shape e with hs | ⟨r', hs⟩ <;> rw [hs] at h ⊢
    · simp [Delegator.success] at h
    · simp [Delegator.fail]

/-- Witness for C8 at a concrete environment: syntactic verification fails. -/
theorem C8_add_delegator_semantic_verify_witness :
    Delegator.semanticVerify (Delegator.Env.mk false (.ok 0) 1 2 (.ok none) (.ok none) none
      true true true true true) = Delegator.fail .perm ∧
    (Delegator.semanticVerify (Delegator.Env.mk false (.ok 0) 1 2 (.ok none) (.ok none) none
      true true true true true)).1 = none :=
  ⟨C8_add_delegator_semantic_verify.1 _ rfl,
   (C8_add_delegator_semantic_verify.2.2.2.2.2.2.2.2 _ .perm
     (by rw [C8_add_delegator_semantic_verify.1 _ rfl]; rfl)).1⟩

/-! ## Semantic spend verification (`vms/platformvm`)

`vm.semanticVerifySpendUTXOs` itself is not among the sources (only its
test and the `StakeableLockOut`/`StakeableLockIn` wrappers are), so it is
modelled from the spec: each input must consume its UTXO with a valid
credential and matching asset; a `StakeableLockOut` may be consumed by a
non-stake input only once its locktime has passed, and otherwise must be
matched by a `StakeableLockIn` with identical locktime; and the flow check
requires, per asset, `Σ inputs ≥ Σ outputs + fee`, refined by locktime
class so that stake-locked amounts flow only to stake-locked outputs with
locktime ≥ the input's locktime and the fee is paid from unlocked funds.
Credentials are abstracted to their verification outcome. -/

namespace Spend

inductive TransferOut where
  | basic (amt : Nat)
  | stakeableLockOut (locktime : Nat) (amt : Nat)
deriving DecidableEq

inductive TransferIn where
  | basic (amt : Nat)
  | stakeableLockIn (locktime : Nat) (amt : Nat)
deriving DecidableEq

structure UTXO where
  assetID : Nat
  out : TransferOut
deriving DecidableEq

structure TransferableInput where
  assetID : Nat
  inp : TransferIn
deriving DecidableEq

structure TransferableOutput where
  assetID : Nat
  out : TransferOut
deriving DecidableEq

def outAmt : TransferOut → Nat
  | .basic a => a
  | .stakeableLockOut _ a => a

def inAmt : TransferIn → Nat
  | .basic a => a
  | .stakeableLockIn _ a => a

/-- Locktime class of an input at time `now`: 0 (unlocked) unless it is a
stake-lock whose locktime is still in the future. -/
def inClass (now : Nat) : TransferIn → Nat
  | .basic _ => 0
  | .stakeableLockIn lt _ => if lt ≤ now then 0 else lt

/-- Locktime class of an output at time `now`. -/
def outClass (now : Nat) : TransferOut → Nat
  | .basic _ => 0
  | .stakeableLockOut lt _ => if lt ≤ now then 0 else lt

/-- Modelled from the spec: one input consuming one UTXO.  The credential
must verify, the assets must match, the amounts must agree, and the
stake-lock rule applies: a future-locked `StakeableLockOut` may only be
consumed by a `StakeableLockIn` with identical locktime, while a plain
input may consume a `StakeableLockOut` only once `locktime ≤ now`. -/
def pairOk (now : Nat) (u : UTXO) (i : TransferableInput) (credOk : Bool) : Bool :=
  credOk && u.assetID == i.assetID &&
    match u.out, i.inp with
    | .basic a, .basic b => a == b
    | .stakeableLockOut lt a, .basic b => decide (lt ≤ now) && a == b
    | .stakeableLockOut lt a, .stakeableLockIn lt2 b => lt == lt2 && a == b
    | .basic _, .stakeableLockIn _ _ => false

/-- All input/UTXO/credential triples check out; also enforces the length
equalities the code checks up front. -/
def pairsOk (now : Nat) : List UTXO → List TransferableInput → List Bool → Bool
  | [], [], [] => true
  | u :: us, i :: is_, c :: cs => pairOk now u i c && pairsOk now us is_ cs
  | _, _, _ => false

def sumInLt (now t asset : Nat) (ins : List TransferableInput) : Nat :=
  ((ins.filter (fun i => i.assetID == asset && decide (inClass now i.inp < t))).map
    (fun i => inAmt i.inp)).sum

def sumOutLt (now t asset : Nat) (outs : List TransferableOutput) : Nat :=
  ((outs.filter (fun o => o.assetID == asset && decide (outClass now o.out < t))).map
    (fun o => outAmt o.out)).sum

def sumInAll (asset : Nat) (ins : List TransferableInput) : Nat :=
  ((ins.filter (fun i => i.assetID == asset)).map (fun i => inAmt i.inp)).sum

def sumOutAll (asset : Nat) (outs : List TransferableOutput) : Nat :=
  ((outs.filter (fun o => o.assetID == asset)).map (fun o => outAmt o.out)).sum

/-- Modelled from the spec's flow check for one asset: the total balance
`Σ in ≥ Σ out + fee`, and for every locktime boundary, amounts below the
boundary (unlocked relative to it) plus the fee must be covered by inputs
below the boundary — so locked amounts never fund looser outputs or the
fee. -/
def flowAssetOk (now fee feeAssetID asset : Nat) (ins : List TransferableInput)
    (outs : List TransferableOutput) : Bool :=
  let feeHere := if asset = feeAssetID then fee else 0
  (sumOutAll asset outs + feeHere ≤ sumInAll asset ins) &&
    (0 :: (ins.map (fun i => inClass now i.inp) ++ outs.map (fun o => outClass now o.out))).all
      (fun c => sumOutLt now (c + 1) asset outs + feeHere ≤ sumInLt now (c + 1) asset ins)

/-- Modelled from the spec: `vm.semanticVerifySpendUTXOs` over a time view
`now`, a fee in the fee asset, parallel `utxos`/`ins`/`creds`, and the
produced `outs`. -/
def spendOk (now fee feeAssetID : Nat) (utxos : List UTXO) (ins : List TransferableInput)
    (outs : List TransferableOutput) (creds : List Bool) : Bool :=
  pairsOk now utxos ins creds &&
    (feeAssetID :: (ins.map (fun i => i.assetID) ++ outs.map (fun o => o.assetID))).all
      (fun asset => flowAssetOk now fee feeAssetID asset ins outs)

/-- From a successful check, every aligned (UTXO, input) pair satisfies the
stake-lock rule. -/
theorem pairsOk_lock_rule (now : Nat) :
    ∀ (utxos : List UTXO) (ins : List TransferableInput) (creds : List Bool),
      pairsOk now utxos ins creds = true →
      ∀ p ∈ utxos.zip ins, ∀ lt a, p.1.out = .stakeableLockOut lt a → now < lt →
        p.2.inp = .stakeableLockIn lt (inAmt p.2.inp) := by
  intro utxos
  induction utxos with
  | nil => intro ins creds _ p hp; simp at hp
  | cons u us ih =>
    intro ins creds hok p hp
    match ins, creds with
    | [], _ => simp at hp
    | _ :: _, [] => simp [pairsOk] at hok
    | i :: is_, c :: cs =>
      simp only [pairsOk, Bool.and_eq_true] at hok
      simp only [List.zip_cons_cons, List.mem_cons] at hp
      rcases hp with hp | hp
      · subst hp
        intro lt a hout hnow
        dsimp only at hout ⊢
        have hpair := hok.1
        unfold pairOk at hpair
        rw [hout] at hpair
        cases hin : i.inp with
        | basic b =>
          rw [hin] at hpair
          simp only [Bool.and_eq_true, decide_eq_true_eq] at hpair
          omega
        | stakeableLockIn lt2 b =>
          rw [hin] at hpair
          simp only [Bool.and_eq_true, beq_iff_eq] at hpair
          simp [inAmt, hpair.2.1]
      · exact ih is_ cs hok.2 p hp

end Spend

/-- C7: in semantic spend verification, an input consuming a future-locked
`StakeableLockOut` is valid only as a `StakeableLockIn` with identical
locktime, and locked amounts flow only to stake-locked outputs with
locktime ≥ the input's; concretely (at `now = 1000`, locktime `1001`,
amounts 1): a transaction whose only input is the future-locked stake
verifies with fee 0, fails with fee 1, succeeds again when an extra
unlocked input pays the fee, and fails when the locked amount flows to an
output of lower (but still future) locktime. -/
theorem C7_stakeable_lock_spend :
    (∀ (now fee feeAssetID : Nat) (utxos : List Spend.UTXO)
      (ins : List Spend.TransferableInput) (outs : List Spend.TransferableOutput)
      (creds : List Bool),
      Spend.spendOk now fee feeAssetID utxos ins outs creds = true →
      ∀ p ∈ utxos.zip ins, ∀ lt a, p.1.out = .stakeableLockOut lt a → now < lt →
        p.2.inp = .stakeableLockIn lt (Spend.inAmt p.2.inp)) ∧
    Spend.spendOk 1000 0 5 [⟨5, .stakeableLockOut 1001 1⟩]
      [⟨5, .stakeableLockIn 1001 1⟩] [] [true] = true ∧
    Spend.spendOk 1000 1 5 [⟨5, .stakeableLockOut 1001 1⟩]
      [⟨5, .stakeableLockIn 1001 1⟩] [] [true] = false ∧
    Spend.spendOk 1000 1 5 [⟨5, .stakeableLockOut 1001 1⟩, ⟨5, .basic 1⟩]
      [⟨5, .stakeableLockIn 1001 1⟩, ⟨5, .basic 1⟩]
      [⟨5, .stakeableLockOut 1001 1⟩] [true, true] = true ∧
    Spend.spendOk 1000 0 5 [⟨5, .stakeableLockOut 2000 1⟩]
      [⟨5, .stakeableLockIn 2000 1⟩] [⟨5, .stakeableLockOut 1500 1⟩] [true] = false := by
  refine ⟨?_, by decide, by decide, by decide, by decide⟩
  intro now fee feeAssetID utxos ins outs creds hok
  have : Spend.pairsOk now utxos ins creds = true := by
    simp only [Spend.spendOk, Bool.and_eq_true] at hok
    exact hok.1
  exact Spend.pairsOk_lock_rule now utxos ins creds this

/-- Witness for C7's general stake-lock rule at the fee-paying scenario. -/
theorem C7_stakeable_lock_spend_witness :
    (⟨5, .stakeableLockIn 1001 1⟩ : Spend.TransferableInput).inp =
      .stakeableLockIn 1001 (Spend.inAmt (⟨5, .stakeableLockIn 1001 1⟩ :
        Spend.TransferableInput).inp) :=
  C7_stakeable_lock_spend.1 1000 1 5 [⟨5, .stakeableLockOut 1001 1⟩, ⟨5, .basic 1⟩]
    [⟨5, .stakeableLockIn 1001 1⟩, ⟨5, .basic 1⟩] [⟨5, .stakeableLockOut 1001 1⟩]
    [true, true] (by decide)
    (⟨5, .stakeableLockOut 1001 1⟩, ⟨5, .stakeableLockIn 1001 1⟩) (by decide)
    1001 1 rfl (by decide)

/-- C5: the status namespace of the vertex state store behaves as specified:
a `SetStatus` with a non-`Unknown` status is returned by the next `Status`
read; `SetStatus(id, Unknown)` deletes the database key; and a `Status`
read of an id that was never written, or whose stored bytes fail to parse,
returns `Unknown` (0). -/
theorem C5_state_status_store :
    (∀ (s : VertexStore.St) (id v : Nat), v ≠ 0 →
      ((s.setStatus id v).status id).1 = v) ∧
    (∀ (s : VertexStore.St) (id : Nat), (s.setStatus id 0).db id = none) ∧
    (∀ (s : VertexStore.St) (id : Nat),
      s.dbCache id = none → s.db id = none → (s.status id).1 = 0) ∧
    (∀ (s : VertexStore.St) (id : Nat) (b : List Nat),
      s.dbCache id = none → s.db id = some b → VertexStore.unpackStatus b = none →
      (s.status id).1 = 0) := by
  refine ⟨fun s id v hv => ?_, fun s id => ?_, fun s id h1 h2 => ?_, fun s id b h1 h2 h3 => ?_⟩
  · simp [VertexStore.St.setStatus, hv, VertexStore.St.status]
  · simp [VertexStore.St.setStatus]
  · simp [VertexStore.St.status, h1, h2]
  · simp [VertexStore.St.status, h1, h2, h3]

/-- Witness for C5 at a concrete store: the empty store, id 7, status 3. -/
theorem C5_state_status_store_witness :
    ((VertexStore.St.mk (fun _ => none) (fun _ => none)).setStatus 7 3).status 7 = (3,
      ((VertexStore.St.mk (fun _ => none) (fun _ => none)).setStatus 7 3)) ∧
    ((VertexStore.St.mk (fun _ => none) (fun _ => none)).setStatus 7 0).db 7 = none ∧
    ((VertexStore.St.mk (fun _ => none) (fun _ => none)).status 7).1 = 0 ∧
    ((VertexStore.St.mk (fun _ => none) (fun _ => some [1])).status 7).1 = 0 := by
  refine ⟨?_, C5_state_status_store.2.1 _ 7, C5_state_status_store.2.2.1 _ 7 rfl rfl,
    C5_state_status_store.2.2.2 _ 7 [1] rfl rfl rfl⟩
  have h := C5_state_status_store.1 (VertexStore.St.mk (fun _ => none) (fun _ => none)) 7 3
    (by decide)
  simp [VertexStore.St.setStatus, VertexStore.St.status] at h ⊢

/-- C10: the alias registry keeps aliases unique: `Alias(id, a)` errors and
leaves the registry unchanged when `a` is registered for any id; after a
successful `Alias(id, a)`, `Lookup(a)` returns `id` and `a` is among
`Aliases(id)`; and after `RemoveAliases(id)`, looking up any of the removed
aliases errors. -/
theorem C10_aliaser_invariant :
    (∀ (a : AliasReg.Aliaser) (id : Nat) (al : String),
      (a.lookup al).isSome → a.alias id al = (a, true)) ∧
    (∀ (a : AliasReg.Aliaser) (id : Nat) (al : String),
      a.lookup al = none →
        (a.alias id al).2 = false ∧
        (a.alias id al).1.lookup al = some id ∧
        al ∈ (a.alias id al).1.aliasesOf id) ∧
    (∀ (a : AliasReg.Aliaser) (id : Nat) (al : String),
      al ∈ a.aliasesOf id → (a.removeAliases id).lookup al = none) := by
  refine ⟨fun a id al h => ?_, fun a id al h => ?_, fun a id al h => ?_⟩
  · simp only [AliasReg.Aliaser.lookup] at h
    cases hd : a.dealias al with
    | none => rw [hd] at h; simp at h
    | some x => simp [AliasReg.Aliaser.alias, hd]
  · simp only [AliasReg.Aliaser.lookup] at h
    refine ⟨?_, ?_, ?_⟩ <;>
      simp [AliasReg.Aliaser.alias, h, AliasReg.Aliaser.lookup, AliasReg.Aliaser.aliasesOf]
  · simp only [AliasReg.Aliaser.aliasesOf] at h
    simp [AliasReg.Aliaser.removeAliases, AliasReg.Aliaser.lookup, h]

/-- Witness for C10 at a concrete registry: start empty, alias 1 ↦ "x",
then re-alias and remove. -/
theorem C10_aliaser_invariant_witness :
    (((AliasReg.Aliaser.mk (fun _ => none) (fun _ => [])).alias 1 "x").1.alias 2 "x" =
      (((AliasReg.Aliaser.mk (fun _ => none) (fun _ => [])).alias 1 "x").1, true)) ∧
    (((AliasReg.Aliaser.mk (fun _ => none) (fun _ => [])).alias 1 "x").1.lookup "x" = some 1) ∧
    ((((AliasReg.Aliaser.mk (fun _ => none) (fun _ => [])).alias 1 "x").1.removeAliases 1).lookup
      "x" = none) := by
  have base : (AliasReg.Aliaser.mk (fun _ => none) (fun _ => [])).lookup "x" = none := rfl
  have h1 := C10_aliaser_invariant.2.1 (AliasReg.Aliaser.mk (fun _ => none) (fun _ => [])) 1 "x"
    base
  refine ⟨?_, h1.2.1, ?_⟩
  · exact C10_aliaser_invariant.1 _ 2 "x" (by rw [h1.2.1]; rfl)
  · exact C10_aliaser_invariant.2.2 _ 1 "x" h1.2.2
